import Mathlib

/-!
Verification development for the douyin-down server.

The repository's server (TypeScript, `server.ts`) resolves a Douyin share
link to a directly fetchable media URL.  This file gives a shallow
embedding of the pure core of that server and of its request pipeline:

* `extractVideoId`      — the id-extraction regexes (`/video/<digits>`,
  `/note/<digits>`, `modal_id=<digits>`);
* `scanRepl` / `normalizeVideoUrl` — JS `String.replace` with a global
  pattern, and the `DOMAIN_REPLACEMENTS` table;
* `replaceOnce`         — JS `String.replace` with a *string* pattern
  (first occurrence only), used for the `playwm -> play` rewrite;
* `Json` / `findVideoInObject` — the deep structure search over parsed
  JSON trees;
* `resolveShortUrl`     — the manual redirect chase with its 10-hop bound
  and auto-follow fallback, with the network abstracted as an oracle;
* `parseHandler`        — the `POST /api/parse` pipeline over strategy
  oracles.

Strings are modelled as `List Char`.  Network effects are modelled by
oracle functions passed in as arguments; every definition is executable.
-/

namespace DouyinDown

abbrev Str := List Char

/-! ### Character classes used by the regexes (`\d`, `[a-z]`) -/

def isDigitC (c : Char) : Bool := '0' ≤ c && c ≤ '9'

def isLowerC (c : Char) : Bool := 'a' ≤ c && c ≤ 'z'

/-! ### VideoIdExtractor

Source (`extractVideoId`, server.ts): three regexes tried in order,
`/\/video\/(\d+)/`, `/\/note\/(\d+)/`, `/modal_id=(\d+)/`; the first match
wins and the digit capture is returned.  `matchTagDigits tag s` scans `s`
left to right for the first position where the literal `tag` is followed
by at least one digit, and returns the (maximal, as `\d+` is greedy)
digit run. -/

def matchTagDigits (tag : Str) : Str → Option Str
  | [] => none
  | c :: t =>
    if tag.isPrefixOf (c :: t) then
      let rest := (c :: t).drop tag.length
      let ds := rest.takeWhile isDigitC
      if ds.isEmpty then matchTagDigits tag t else some ds
    else
      matchTagDigits tag t

def extractVideoId (url : Str) : Option Str :=
  match matchTagDigits "/video/".data url with
  | some ds => some ds
  | none =>
    match matchTagDigits "/note/".data url with
    | some ds => some ds
    | none => matchTagDigits "modal_id=".data url

/-! ### DomainNormalizer

Source (`DOMAIN_REPLACEMENTS` / `normalizeVideoUrl`, server.ts): a fixed
table of global regex replacements applied in order.  The first three
patterns are literal strings; the fourth is `v\d+-[a-z]+\.douyinvod\.com`.
All four are replaced by `www.douyin.com`.

`scanRepl m rep s` is JS `s.replace(pattern, rep)` with a global pattern:
scan left to right; where the matcher `m` reports a match of length `L`,
emit `rep` and continue after the match (the replacement text is not
rescanned); otherwise copy one character. -/

def scanRepl (m : Str → Option Nat) (rep : Str) : Str → Str
  | [] => []
  | c :: t =>
    match m (c :: t) with
    | some L => rep ++ scanRepl m rep (t.drop (L - 1))
    | none => c :: scanRepl m rep t
termination_by s => s.length
decreasing_by
  · simp [List.length_drop]; omega
  · simp

/-- Matcher for a literal string pattern at the head of the input. -/
def litMatch (pat : Str) (s : Str) : Option Nat :=
  if pat.isPrefixOf s then some pat.length else none

def repStr : Str := "www.douyin.com".data

def pat1 : Str := "aweme.snssdk.com".data

def pat2 : Str := "api-h2.amemv.com".data

def pat3 : Str := "api.amemv.com".data

/-- The literal tail of the fourth pattern, `.douyinvod.com`. -/
def tail4 : Str := ".douyinvod.com".data

/-- Deterministic matcher for `v\d+-[a-z]+\.douyinvod\.com` at the head of
the input.  Greedy `\d+` is followed by `-` (not a digit) and greedy
`[a-z]+` is followed by `.` (not a lowercase letter), so the maximal runs
are the only candidates and no backtracking is needed. -/
def p4Match (s : Str) : Option Nat :=
  match s with
  | [] => none
  | c :: r1 =>
    if c = 'v' then
      let ds := r1.takeWhile isDigitC
      if ds.isEmpty then none
      else
        match r1.dropWhile isDigitC with
        | [] => none
        | d :: r2 =>
          if d = '-' then
            let ls := r2.takeWhile isLowerC
            if ls.isEmpty then none
            else if tail4.isPrefixOf (r2.dropWhile isLowerC) then
              some (1 + ds.length + 1 + ls.length + tail4.length)
            else none
          else none
    else none

/-- `normalizeVideoUrl` from server.ts: the four global replacements of
`DOMAIN_REPLACEMENTS` applied in table order. -/
def normalizeVideoUrl (url : Str) : Str :=
  scanRepl p4Match repStr
    (scanRepl (litMatch pat3) repStr
      (scanRepl (litMatch pat2) repStr
        (scanRepl (litMatch pat1) repStr url)))

/-! ### JS `String.replace` with a string pattern (first occurrence) -/

def replaceOnce (pat rep : Str) : Str → Str
  | [] => []
  | c :: t =>
    if pat.isPrefixOf (c :: t) then rep ++ (c :: t).drop pat.length
    else c :: replaceOnce pat rep t

def wmMarker : Str := "playwm".data

def wmPlain : Str := "play".data

/-- The text before the leftmost occurrence of `pat` (as `replaceOnce`
finds it). -/
def breakBefore (pat : Str) : Str → Str
  | [] => []
  | c :: t => if pat.isPrefixOf (c :: t) then [] else c :: breakBefore pat t

/-- The text after the leftmost occurrence of `pat`. -/
def breakAfter (pat : Str) : Str → Str
  | [] => []
  | c :: t => if pat.isPrefixOf (c :: t) then (c :: t).drop pat.length else breakAfter pat t

/-! ### Occurrence machinery for the idempotence proof -/

/-- `Occurs P s`: some word of the pattern language `P` occurs in `s`. -/
def Occurs (P : Str → Prop) (s : Str) : Prop := ∃ w, P w ∧ w <:+: s

/-- The language of the literal patterns: exactly the pattern itself. -/
def LitP (pat : Str) (w : Str) : Prop := w = pat

/-- The language of `v\d+-[a-z]+\.douyinvod\.com`. -/
def IsP4 (w : Str) : Prop :=
  ∃ ds ls : Str, ds ≠ [] ∧ ls ≠ [] ∧ (∀ c ∈ ds, isDigitC c) ∧ (∀ c ∈ ls, isLowerC c) ∧
    w = 'v' :: (ds ++ '-' :: (ls ++ tail4))

/-- Facts separating a pattern language `P` from the replacement text `rep`,
sufficient for replacement never to create a new occurrence of `P`. -/
structure SepFacts (P : Str → Prop) (rep : Str) : Prop where
  nonempty : ∀ w, P w → w ≠ []
  not_in_rep : ∀ w, P w → ¬ w <:+: rep
  head_notin : ∀ w c t, P w → w = c :: t → c ∉ rep
  no_suffix_pref : ∀ w a b, P w → w = a ++ b → b ≠ [] → ¬ b <+: rep
  rep_not_infix : ∀ w, P w → ¬ rep <:+: w

/-- The matcher fires whenever a word of `P` starts at the head. -/
def MatcherComplete (m : Str → Option Nat) (P : Str → Prop) : Prop :=
  ∀ s w, P w → w <+: s → m s ≠ none

/-- When the matcher fires, a word of `P` starts at the head. -/
def MatcherSound (m : Str → Option Nat) (P : Str → Prop) : Prop :=
  ∀ s L, m s = some L → ∃ w, P w ∧ w <+: s

/-! ### JSON trees and DeepStructureSearch

Source (`findVideoInObject`, server.ts).  `Json` models the values
produced by `JSON.parse` (numbers as `Int`; numeric precision is
irrelevant to every claim).  A `Json.obj` field list represents the
parsed object's properties in JS iteration order with unique keys —
exactly the form `JSON.parse` output takes — so list order is
`Object.keys` order and field lookup is unambiguous.

Two search models follow.  The restricted `findVideoInObject` below
takes the field payloads the source reads with string methods
(`startsWith`, `replace`) to be JSON strings and the `url_list`
payloads to be arrays; the claims that evaluate it do so only on trees
of that form.  The claim that quantifies over arbitrary trees (C5) is
settled on the full JS-semantics model `findVideoInObjectJs` further
down, in which `.length` and `[0]` also act on strings and on objects
carrying such properties, the `> 0` guard coerces its operand as JS `>`
does, and a string method invoked on an unsuitable payload raises a
`TypeError` that aborts the whole traversal. -/

inductive Json where
  | null : Json
  | bool (b : Bool) : Json
  | num (n : Int) : Json
  | str (s : Str) : Json
  | arr (elems : List Json) : Json
  | obj (fields : List (Str × Json)) : Json

/-- The record a successful shape match produces. -/
structure VideoRec where
  videoSrc : Str
  coverSrc : Str
  descText : Str
deriving DecidableEq, Repr

/-- JS property access `j[k]` on a parsed JSON value: `none` models
`undefined` (also the result of accessing a property of a non-object). -/
def getField : Json → Str → Option Json
  | .obj fields, k =>
    (match fields.find? (fun p => p.1 = k) with
     | some p => some p.2
     | none => none)
  | _, _ => none

/-- Chained access `j?.k` where `j` may already be `undefined`. -/
def ogetField (j : Option Json) (k : Str) : Option Json :=
  match j with
  | some v => getField v k
  | none => none

/-- JS truthiness of a possibly-`undefined` JSON value. -/
def jTruthy : Option Json → Bool
  | some .null => false
  | some (.bool b) => b
  | some (.num n) => n ≠ 0
  | some (.str s) => s ≠ []
  | some (.arr _) => true
  | some (.obj _) => true
  | none => false

def jStr? : Option Json → Option Str
  | some (.str s) => some s
  | _ => none

/-- JS `x?.[0]` restricted to array values.  (The JS-faithful `jsGet`
below also indexes strings and objects; this restricted form is used
only by the restricted search model.) -/
def index0 : Option Json → Option Json
  | some (.arr (x :: _)) => some x
  | _ => none

/-- JS `a || b` on strings (empty string is falsy). -/
def jsOrS (a b : Str) : Str := if a = [] then b else a

/-- `x?.y?.[0] || ''` collapsed to a string (non-string gives `''`). -/
def strOrEmpty (j : Option Json) : Str := (jStr? j).getD []

/-- The three shape checks performed at one node, in source order:
`playApi` (modern), then `play_addr` (legacy, with the `playwm -> play`
rewrite), then `download_addr`.  Returns the record of the first shape
that matches, `none` if none does.  Restricted model: `url_list`
payloads are taken to be arrays of strings and a non-string `playApi`
to be no match; `shapeCheckJs` below carries the full JS semantics
(string/object `length` and indexing, `TypeError` propagation), and
the claims that evaluate this restricted version do so only on trees
of the restricted form. -/
def shapeCheck (j : Json) : Option VideoRec :=
  let video := getField j "video".data
  let playApi := ogetField video "playApi".data
  if jTruthy video && jTruthy playApi then
    match jStr? playApi with
    | some s =>
      let videoSrc := if "http".data.isPrefixOf s then s else "https:".data ++ s
      let coverSrc := jsOrS (strOrEmpty (index0 (ogetField (ogetField video "cover".data) "urlList".data)))
                            (strOrEmpty (index0 (ogetField (ogetField video "dynamicCover".data) "urlList".data)))
      some ⟨videoSrc, coverSrc, strOrEmpty (getField j "desc".data)⟩
    | none => none
  else
    let playAddr := ogetField video "play_addr".data
    match jTruthy video && jTruthy playAddr, ogetField playAddr "url_list".data with
    | true, some (.arr (u0 :: _)) =>
      (match jStr? (some u0) with
       | some u =>
         some ⟨replaceOnce wmMarker wmPlain u,
               strOrEmpty (index0 (ogetField (ogetField video "cover".data) "url_list".data)),
               strOrEmpty (getField j "desc".data)⟩
       | none => none)
    | _, _ =>
      let dl := ogetField video "download_addr".data
      match jTruthy video, ogetField dl "url_list".data with
      | true, some (.arr (u0 :: _)) =>
        (match jStr? (some u0) with
         | some u =>
           some ⟨u,
                 strOrEmpty (index0 (ogetField (ogetField video "cover".data) "url_list".data)),
                 strOrEmpty (getField j "desc".data)⟩
         | none => none)
      | _, _ => none

mutual

/-- `findVideoInObject` from server.ts, over the restricted shape
model.  Scalars and `null` return `null` (`!obj || typeof obj !==
'object'`); at array/object nodes the three shapes are checked first,
then the children are visited in key iteration order.  A child result
is returned only if it exists *and* its `videoSrc` is truthy (`if
(result && result.videoSrc) return result`). -/
def findVideoInObject : Json → Option VideoRec
  | .arr elems =>
    (match shapeCheck (.arr elems) with
     | some r => some r
     | none => findElems elems)
  | .obj fields =>
    (match shapeCheck (.obj fields) with
     | some r => some r
     | none => findFields fields)
  | _ => none

def findElems : List Json → Option VideoRec
  | [] => none
  | c :: rest =>
    (match findVideoInObject c with
     | some r => if r.videoSrc ≠ [] then some r else findElems rest
     | none => findElems rest)

def findFields : List (Str × Json) → Option VideoRec
  | [] => none
  | (_, v) :: rest =>
    (match findVideoInObject v with
     | some r => if r.videoSrc ≠ [] then some r else findFields rest
     | none => findFields rest)

end

/-! ### DeepStructureSearch under full JS semantics (claim C5)

Claim C5 quantifies over every JSON-like tree, so its model keeps the
JavaScript behaviours the restricted search above elides: `.length`
and `[0]` also work on strings and on objects carrying such
properties, `url_list?.length > 0` coerces its operand the way JS `>`
does, and calling a string method on an unsuitable payload
(`startsWith` on a truthy non-string `playApi`, `replace` on a missing
or non-string `url_list[0]`) raises a `TypeError` that aborts the
whole traversal — there is no `try` inside the recursion, so the
exception propagates to the strategy `catch`.  Faults are modelled
with `Except Unit`.  String `length`/indexing counts `Char`s (code
points), consistent with `Str` throughout this file; positivity of a
nonempty string's length is unaffected. -/

/-- JS `\s`: the WhiteSpace and LineTerminator code points. -/
def jsSpace (c : Char) : Bool :=
  c = ' ' || c = '\t' || c = '\n' || c = '\r' ||
  c.val = 0x0b || c.val = 0x0c || c.val = 0xa0 || c.val = 0x1680 ||
  (0x2000 ≤ c.val && c.val ≤ 0x200a) || c.val = 0x2028 || c.val = 0x2029 ||
  c.val = 0x202f || c.val = 0x205f || c.val = 0x3000 || c.val = 0xfeff

def digitsVal (ds : Str) : Nat :=
  ds.foldl (fun a c => 10 * a + (c.toNat - '0'.toNat)) 0

/-- The canonical array-index property keys: `"0"`, or a digit run
without a leading zero (the JS keys integer indexing goes through). -/
def canonIndex : Str → Option Nat
  | [] => none
  | c :: rest =>
    if c == '0' && rest.isEmpty then some 0
    else if isDigitC c && c != '0' && rest.all isDigitC then some (digitsVal (c :: rest))
    else none

/-- JS property access `x[k]` on a parsed JSON value (`none` is
`undefined`): field lookup on objects; `length` and element access on
arrays; `length` and single-character access on strings; `undefined` on
every other receiver.  Never throws — the source performs unguarded
access only behind truthiness guards or optional chaining. -/
def jsGet : Json → Str → Option Json
  | .obj fields, k =>
    (match fields.find? (fun p => p.1 = k) with
     | some p => some p.2
     | none => none)
  | .arr elems, k =>
    if k = "length".data then some (.num elems.length)
    else
      (match canonIndex k with
       | some i => elems.get? i
       | none => none)
  | .str s, k =>
    if k = "length".data then some (.num s.length)
    else
      (match canonIndex k with
       | some i => (s.get? i).map (fun c => .str [c])
       | none => none)
  | _, _ => none

/-- Optional-chained access `x?.[k]` where `x` may be `undefined`. -/
def jsGetU (v : Option Json) (k : Str) : Option Json :=
  match v with
  | some x => jsGet x k
  | none => none

/-- A nonempty digit run denoting a positive decimal integer. -/
def decPos (t : Str) : Bool :=
  !t.isEmpty && t.all isDigitC && t.any (fun c => c != '0')

def isHexDigitC (c : Char) : Bool :=
  isDigitC c || ('a' ≤ c && c ≤ 'f') || ('A' ≤ c && c ≤ 'F')

def isOctDigitC (c : Char) : Bool := '0' ≤ c && c ≤ '7'

def isBinDigitC (c : Char) : Bool := c = '0' || c = '1'

/-- A `0x`/`0o`/`0b` radix literal (unsigned only, as in JS `ToNumber`):
`some b` with `b` the positivity of its value, `none` if not of this
form. -/
def radixPos (pl pu : Char) (dig : Char → Bool) : Str → Option Bool
  | '0' :: c :: rest =>
    if (c == pl || c == pu) && !rest.isEmpty && rest.all dig then
      some (rest.any (fun d => d != '0'))
    else none
  | _ => none

def unsignedNumPos (t : Str) : Bool :=
  if t = "Infinity".data then true
  else
    match radixPos 'x' 'X' isHexDigitC t with
    | some b => b
    | none =>
      match radixPos 'o' 'O' isOctDigitC t with
      | some b => b
      | none =>
        match radixPos 'b' 'B' isBinDigitC t with
        | some b => b
        | none => decPos t

/-- Whether JS `ToNumber` of a string is `> 0`, under the file's integer
abstraction of JSON numbers: whitespace-trimmed integer decimal, hex,
octal and binary literals and `Infinity` are recognised; fractional or
exponent literals — values that `Json.num : Int` cannot carry either —
fall to `NaN` and hence `false`. -/
def strToNumPos (s : Str) : Bool :=
  match ((s.dropWhile jsSpace).reverse.dropWhile jsSpace).reverse with
  | [] => false
  | '+' :: r => r = "Infinity".data || decPos r
  | '-' :: _ => false
  | t => unsignedNumPos t

mutual

/-- JS `ToString` in the `Array.prototype.join` context (the
`ToPrimitive` step of coercing an array in `>`); `null` joins as the
empty string. -/
def jsToStr : Json → Str
  | .null => []
  | .bool true => "true".data
  | .bool false => "false".data
  | .num n => (toString n).data
  | .str s => s
  | .obj _ => "[object Object]".data
  | .arr es => jsListToStr es

def jsListToStr : List Json → Str
  | [] => []
  | [x] => jsToStr x
  | x :: y :: rest => jsToStr x ++ ',' :: jsListToStr (y :: rest)

end

/-- JS `x > 0` on a possibly-`undefined` JSON value: `ToNumber` on the
operand (arrays coerce through their comma join, plain objects to
`NaN`). -/
def jsPositive : Option Json → Bool
  | none => false
  | some .null => false
  | some (.bool b) => b
  | some (.num n) => 0 < n
  | some (.str s) => strToNumPos s
  | some (.arr es) => strToNumPos (jsListToStr es)
  | some (.obj _) => false

/-- The record the source builds under full JS semantics.  The
`download_addr` shape copies `url_list[0]` without applying any string
method, so `videoSrcV` can there be any value, even `undefined`; the
`||`-defaulted cover and description can be any truthy value. -/
structure JsRec where
  videoSrcV : Option Json
  coverSrcV : Json
  descV : Json

/-- JS `a || b` on possibly-`undefined` values. -/
def jsOrV (a b : Option Json) : Option Json := if jTruthy a then a else b

/-- JS `a || ''`. -/
def jsOrStr (a : Option Json) : Json := if jTruthy a then a.getD (.str []) else .str []

/-- `obj.video?.cover?.urlList?.[0] || obj.video?.dynamicCover?.urlList?.[0] || ''`. -/
def coverModern (video : Option Json) : Json :=
  jsOrStr (jsOrV (jsGetU (jsGetU (jsGetU video "cover".data) "urlList".data) "0".data)
                 (jsGetU (jsGetU (jsGetU video "dynamicCover".data) "urlList".data) "0".data))

/-- `obj.video?.cover?.url_list?.[0] || ''`. -/
def coverLegacy (video : Option Json) : Json :=
  jsOrStr (jsGetU (jsGetU (jsGetU video "cover".data) "url_list".data) "0".data)

/-- `obj.desc || ''`. -/
def descJs (j : Json) : Json := jsOrStr (jsGet j "desc".data)

/-- The three shape checks at one node under full JS semantics, in
source order.  `.error ()` is a `TypeError`: `startsWith` called on a
truthy non-string `playApi`, or `replace` called on a missing or
non-string `url_list[0]` of a matched legacy shape. -/
def shapeCheckJs (j : Json) : Except Unit (Option JsRec) :=
  let video := jsGet j "video".data
  let playApi := jsGetU video "playApi".data
  if jTruthy video && jTruthy playApi then
    match playApi with
    | some (.str s) =>
      .ok (some ⟨some (.str (if "http".data.isPrefixOf s then s else "https:".data ++ s)),
                 coverModern video, descJs j⟩)
    | _ => .error ()
  else
    let playAddr := jsGetU video "play_addr".data
    let ulA := jsGetU playAddr "url_list".data
    if jTruthy video && jTruthy playAddr && jsPositive (jsGetU ulA "length".data) then
      match jsGetU ulA "0".data with
      | some (.str u) =>
        .ok (some ⟨some (.str (replaceOnce wmMarker wmPlain u)), coverLegacy video, descJs j⟩)
      | _ => .error ()
    else
      let dl := jsGetU video "download_addr".data
      let ulB := jsGetU dl "url_list".data
      if jTruthy video && jTruthy dl && jsPositive (jsGetU ulB "length".data) then
        .ok (some ⟨jsGetU ulB "0".data, coverLegacy video, descJs j⟩)
      else
        .ok none

mutual

/-- `findVideoInObject` from server.ts under full JS semantics: as the
restricted model above, but a `TypeError` raised by a shape check
aborts the entire traversal (the source has no `try` around the
recursive calls). -/
def findVideoInObjectJs : Json → Except Unit (Option JsRec)
  | .arr elems =>
    (match shapeCheckJs (.arr elems) with
     | .error e => .error e
     | .ok (some r) => .ok (some r)
     | .ok none => findJsElems elems)
  | .obj fields =>
    (match shapeCheckJs (.obj fields) with
     | .error e => .error e
     | .ok (some r) => .ok (some r)
     | .ok none => findJsFields fields)
  | _ => .ok none

def findJsElems : List Json → Except Unit (Option JsRec)
  | [] => .ok none
  | c :: rest =>
    (match findVideoInObjectJs c with
     | .error e => .error e
     | .ok (some r) => if jTruthy r.videoSrcV then .ok (some r) else findJsElems rest
     | .ok none => findJsElems rest)

def findJsFields : List (Str × Json) → Except Unit (Option JsRec)
  | [] => .ok none
  | (_, v) :: rest =>
    (match findVideoInObjectJs v with
     | .error e => .error e
     | .ok (some r) => if jTruthy r.videoSrcV then .ok (some r) else findJsFields rest
     | .ok none => findJsFields rest)

end

/-- `findSome?` lifted over the exception layer: the first `.ok (some
_)` wins, an `.error` aborts the scan. -/
def exceptFindSome? {α β : Type} (f : α → Except Unit (Option β)) :
    List α → Except Unit (Option β)
  | [] => .ok none
  | a :: rest =>
    (match f a with
     | .error e => .error e
     | .ok (some b) => .ok (some b)
     | .ok none => exceptFindSome? f rest)

/-- Modelled from the spec: the traversal exactly as claim C5 words it,
over the JS-faithful shape check — at each node check the three shapes
in order; on no match, recurse into the children in key iteration order
and "return the first non-absent result from any child" (no condition
on its media URL); a `TypeError` propagates.  Kept for refinement
comparison against `findVideoInObjectJs`. -/
def searchSpecJs (j : Json) : Except Unit (Option JsRec) :=
  match shapeCheckJs j with
  | .error e => .error e
  | .ok (some r) => .ok (some r)
  | .ok none =>
    match j with
    | .arr elems => exceptFindSome? (fun c => searchSpecJs c.1) elems.attach
    | .obj fields => exceptFindSome? (fun p => searchSpecJs p.1.2) fields.attach
    | _ => .ok none
termination_by sizeOf j
decreasing_by
  · have := List.sizeOf_lt_of_mem c.2
    simp only [Json.arr.sizeOf_spec]
    omega
  · have h1 := List.sizeOf_lt_of_mem p.2
    have h2 : sizeOf p.1.2 < sizeOf p.1 := by
      obtain ⟨⟨k, v⟩, hp⟩ := p
      simp_arith
    simp only [Json.obj.sizeOf_spec]
    omega

/-- Modelled from the spec, amended as the code forces: like
`searchSpecJs` but a child result is used only when it is non-absent
*and* its media URL is truthy. -/
def searchAmendedJs (j : Json) : Except Unit (Option JsRec) :=
  match shapeCheckJs j with
  | .error e => .error e
  | .ok (some r) => .ok (some r)
  | .ok none =>
    match j with
    | .arr elems =>
      exceptFindSome?
        (fun c => (searchAmendedJs c.1).map (fun o => o.filter (fun r => jTruthy r.videoSrcV)))
        elems.attach
    | .obj fields =>
      exceptFindSome?
        (fun p => (searchAmendedJs p.1.2).map (fun o => o.filter (fun r => jTruthy r.videoSrcV)))
        fields.attach
    | _ => .ok none
termination_by sizeOf j
decreasing_by
  · have := List.sizeOf_lt_of_mem c.2
    simp only [Json.arr.sizeOf_spec]
    omega
  · have h1 := List.sizeOf_lt_of_mem p.2
    have h2 : sizeOf p.1.2 < sizeOf p.1 := by
      obtain ⟨⟨k, v⟩, hp⟩ := p
      simp_arith
    simp only [Json.obj.sizeOf_spec]
    omega

/-- Discriminator separating two traversal outcomes by the truthiness of
the carried media URL. -/
def jsRecHit : Except Unit (Option JsRec) → Bool
  | .ok (some r) => jTruthy r.videoSrcV
  | _ => false

/-! ### Concrete trees for the search claims -/

/-- A legacy-shape node whose `url_list` head is the empty string: the
shape matches (`url_list?.length > 0`) but the produced record has an
empty `videoSrc`. -/
def legacyEmptyNode : Json :=
  .obj [("video".data, .obj [("play_addr".data, .obj [("url_list".data, .arr [.str []])])])]

/-- A modern-shape node producing media URL `https://b`. -/
def modernBNode : Json :=
  .obj [("video".data, .obj [("playApi".data, .str "//b".data)])]

/-- Tree whose first child yields a non-absent record with an empty media
URL and whose second child yields a usable record. -/
def c5tree : Json := .obj [("a".data, legacyEmptyNode), ("b".data, modernBNode)]

/-- `{"video":{"play_addr":{"url_list":"ab"}}}`: a legacy shape whose
`url_list` is a plain string — `"ab".length > 0` holds and `"ab"[0]` is
`"a"`. -/
def strListNode : Json :=
  .obj [("video".data, .obj [("play_addr".data, .obj [("url_list".data, .str "ab".data)])])]

/-- `{"video":{"playApi":5}}`: a truthy non-string `playApi`, on which
`startsWith` throws. -/
def throwInner : Json :=
  .obj [("video".data, .obj [("playApi".data, .num 5)])]

/-- `throwInner` one level down: the `TypeError` must escape the child
loop. -/
def throwNode : Json := .obj [("k".data, throwInner)]

/-- `{"video":{"play_addr":{"url_list":{"length":2,"0":"u"}}}}`: a
length-bearing object accepted by the `url_list?.length > 0` guard and
indexed through its `"0"` property. -/
def lenObjNode : Json :=
  .obj [("video".data, .obj [("play_addr".data,
    .obj [("url_list".data, .obj [("length".data, .num 2), ("0".data, .str "u".data)])])])]

/-- Canonical legacy-shape node carrying media URL `u`, cover `cov` and
description `d` (the shape strategy 1's API data takes). -/
def mkLegacy (u cov d : Str) : Json :=
  .obj [("video".data,
          .obj [("play_addr".data, .obj [("url_list".data, .arr [.str u])]),
                ("cover".data, .obj [("url_list".data, .arr [.str cov])])]),
        ("desc".data, .str d)]

/-- A modern-shape leaf producing media URL `https://m`. -/
def matchLeaf : Json := .obj [("video".data, .obj [("playApi".data, .str "//m".data)])]

/-- `deepNest n`: `matchLeaf` wrapped in `n` single-key objects. -/
def deepNest : Nat → Json
  | 0 => matchLeaf
  | n + 1 => .obj [("wrap".data, deepNest n)]

/-- `deepPlain n`: a scalar wrapped in `n` single-key objects — no node
matches any shape. -/
def deepPlain : Nat → Json
  | 0 => .str "x".data
  | n + 1 => .obj [("wrap".data, deepPlain n)]

/-! ### Heap model for self-referential inputs (claim C6)

JS values are references into a heap, so an object can contain itself;
inductive trees cannot represent that.  `HNode` models one heap node:
either a scalar or an object/array node with its children given as heap
addresses.  The three shape checks do not recurse, so they are abstracted
into the precomputed field `shapeHit`.  `findHeap` is the same recursion
as `findVideoInObject` read against the heap, instrumented with fuel:
`none` means the call has not returned within `fuel` nested calls — if
that holds for every fuel, the source recursion never terminates. -/

inductive HNode where
  | leaf : HNode
  | node (shapeHit : Option VideoRec) (children : List Nat) : HNode

mutual

def findHeap (h : Nat → HNode) : Nat → Nat → Option (Option VideoRec)
  | 0, _ => none
  | fuel + 1, v =>
    match h v with
    | .leaf => some none
    | .node sh cs =>
      match sh with
      | some r => some (some r)
      | none => findHeapList h fuel cs
termination_by fuel _ => (fuel, 0)

def findHeapList (h : Nat → HNode) : Nat → List Nat → Option (Option VideoRec)
  | _, [] => some none
  | fuel, c :: rest =>
    match findHeap h fuel c with
    | none => none
    | some (some r) => if r.videoSrc ≠ [] then some (some r) else findHeapList h fuel rest
    | some none => findHeapList h fuel rest
termination_by fuel cs => (fuel, cs.length + 1)

end

/-- The recursion on heap address `v` never returns, for any amount of
fuel. -/
def heapDiverges (h : Nat → HNode) (v : Nat) : Prop := ∀ fuel, findHeap h fuel v = none

/-- A self-referential heap: address 0 holds an object with one key whose
value is the object itself, and no shape matches. -/
def cycHeap : Nat → HNode := fun _ => .node none [0]

/-! ### Mobile-scrape transform (claim C8)

Source: strategy 3 of `POST /api/parse`: the regex capture is unescaped
(`/` and `\/` to `/`), scheme-prefixed, and `playwm` is rewritten to
`play` (JS `replace` with a string pattern: first occurrence). -/

def escU002F : Str := ['\\', 'u', '0', '0', '2', 'F']

def escSlash : Str := ['\\', '/']

def unescapeSlashes (s : Str) : Str :=
  scanRepl (litMatch escSlash) ['/'] (scanRepl (litMatch escU002F) ['/'] s)

def mobilePreprocess (captured : Str) : Str :=
  let src := unescapeSlashes captured
  if "//".data.isPrefixOf src then "https:".data ++ src
  else if "http".data.isPrefixOf src then src
  else "https:".data ++ src

def mobileProcess (captured : Str) : Str :=
  replaceOnce wmMarker wmPlain (mobilePreprocess captured)

/-! ### ShortLinkResolver (claims C3, C4)

Source: `resolveShortUrl`.  The network is an oracle `net : Str →
HttpResp`; relative `Location` resolution (`new URL(location, base)`) is
an oracle `rr`; the auto-follow fallback request is an oracle `fb`.
`manualReqs` counts the GET requests issued by the manual chase loop;
`usedFallback` records whether the auto-follow fallback request was
issued. -/

inductive HttpResp where
  | ok (respUrl : Option Str)
  | redirect (location : Option Str)
  | err

inductive FbResp where
  | fbOk (respUrl : Option Str)
  | fbErr (lastUrl : Option Str)

structure ResolveOut where
  finalUrl : Str
  videoId : Option Str
  manualReqs : Nat
  usedFallback : Bool
deriving DecidableEq, Repr

/-- `location.startsWith('http') ? location : new URL(location, currentUrl).href`. -/
def chaseNext (rr : Str → Str → Str) (cur loc : Str) : Str :=
  if "http".data.isPrefixOf loc then loc else rr cur loc

/-- The auto-follow fallback (`axios.get(shortUrl, { maxRedirects: 10 })`):
on success the effective URL is used, on fault the last URL the fault
reports; either way id extraction is attempted on it. -/
def fallbackResolve (fb : FbResp) (shortUrl : Str) (reqs : Nat) : ResolveOut :=
  match fb with
  | .fbOk respUrl =>
    let finalUrl := respUrl.getD shortUrl
    ⟨finalUrl, extractVideoId finalUrl, reqs, true⟩
  | .fbErr lastUrl =>
    let finalUrl := lastUrl.getD shortUrl
    ⟨finalUrl, extractVideoId finalUrl, reqs, true⟩

/-- The manual redirect-chase loop (`for (let i = 0; i < 10; i++)`).
A 2xx answer ends the chase (with id extraction from the current URL and,
failing that, the response-reported URL); a 3xx with a `Location` either
exposes an id or continues the chase; a 3xx without `Location` or any
other fault breaks to the fallback. -/
def manualChase (net : Str → HttpResp) (rr : Str → Str → Str) (fb : FbResp) (shortUrl : Str) :
    Nat → Str → Nat → ResolveOut
  | 0, _, reqs => fallbackResolve fb shortUrl reqs
  | fuel + 1, cur, reqs =>
    match net cur with
    | .ok respUrl =>
      (match extractVideoId cur with
       | some id => ⟨cur, some id, reqs + 1, false⟩
       | none =>
         match respUrl with
         | some r =>
           (match extractVideoId r with
            | some id => ⟨r, some id, reqs + 1, false⟩
            | none => ⟨cur, none, reqs + 1, false⟩)
         | none => ⟨cur, none, reqs + 1, false⟩)
    | .redirect loc =>
      (match loc with
       | some location =>
         (match extractVideoId (chaseNext rr cur location) with
          | some id => ⟨chaseNext rr cur location, some id, reqs + 1, false⟩
          | none => manualChase net rr fb shortUrl fuel (chaseNext rr cur location) (reqs + 1))
       | none => fallbackResolve fb shortUrl (reqs + 1))
    | .err => fallbackResolve fb shortUrl (reqs + 1)

/-- `resolveShortUrl` from server.ts: immediate return when the input URL
already carries an id, otherwise the 10-hop manual chase with auto-follow
fallback. -/
def resolveShortUrl (net : Str → HttpResp) (rr : Str → Str → Str) (fb : FbResp)
    (shortUrl : Str) : ResolveOut :=
  match extractVideoId shortUrl with
  | some id => ⟨shortUrl, some id, 0, false⟩
  | none => manualChase net rr fb shortUrl 10 shortUrl 0

/-! ### The POST /api/parse pipeline (claims C1, C2, C9, C10)

Each strategy's network interaction is an oracle.  `none` at the outer
`Option` is a strategy fault (the request or parse threw); the strategy's
`catch` logs it and the pipeline continues. -/

structure StratOracle where
  /-- Strategy 1: the `aweme_detail` JSON, if the API answered with one. -/
  s1 : Option (Option Json)
  /-- Strategy 2: the parsed `RENDER_DATA` payload, and the successfully
  parsed router-data script payloads in document order. -/
  s2 : Option (Option Json × List Json)
  /-- Strategy 3: the first regex capture from the mobile page scripts,
  and the first generic `.mp4` URL match in the raw page body. -/
  s3 : Option (Option Str × Option Str)
  /-- Strategy 4: the first item of `item_list` collapsed to
  `(url_list[0], cover, desc)` when present. -/
  s4 : Option (Option (Str × Str × Str))
  /-- Strategy 5: whether the HEAD probe of the constructed URL returned
  status 200. -/
  s5 : Option Bool

structure PState where
  videoSrc : Str
  coverSrc : Str
  descText : Str
deriving DecidableEq, Repr

def initialPState : PState := ⟨[], [], []⟩

/-- Strategy 1 (`Douyin Web API`): deep-search the detail JSON; assign
only a record with truthy `videoSrc`. -/
def step1 (i : Option (Option Json)) (st : PState) : PState :=
  match i with
  | some (some detail) =>
    (match findVideoInObject detail with
     | some r => if r.videoSrc ≠ [] then ⟨r.videoSrc, r.coverSrc, r.descText⟩ else st
     | none => st)
  | _ => st

/-- The script-scan of strategy 2: the first router-data payload whose
deep search yields a record with truthy `videoSrc`. -/
def firstBlobHit : List Json → Option VideoRec
  | [] => none
  | j :: rest =>
    (match findVideoInObject j with
     | some r => if r.videoSrc ≠ [] then some r else firstBlobHit rest
     | none => firstBlobHit rest)

/-- Strategy 2 (`Desktop page RENDER_DATA`): try the RENDER_DATA payload,
then the router-data payloads. -/
def step2 (i : Option (Option Json × List Json)) (st : PState) : PState :=
  match i with
  | some (rd, blobs) =>
    (match (match rd with
            | some j =>
              (match findVideoInObject j with
               | some r => if r.videoSrc ≠ [] then some r else none
               | none => none)
            | none => none) with
     | some r => ⟨r.videoSrc, r.coverSrc, r.descText⟩
     | none =>
       match firstBlobHit blobs with
       | some r => ⟨r.videoSrc, r.coverSrc, r.descText⟩
       | none => st)
  | none => st

/-- Strategy 3 (`Mobile page scraping`): a non-empty regex capture is
transformed and assigned to `videoSrc` only; otherwise the generic
`.mp4` match is assigned as-is.  Cover and description are untouched. -/
def step3 (i : Option (Option Str × Option Str)) (st : PState) : PState :=
  match i with
  | some (cap, mp4) =>
    let st' := match cap with
      | some c => if c ≠ [] then { st with videoSrc := mobileProcess c } else st
      | none => st
    if st'.videoSrc = [] then
      match mp4 with
      | some s => { st' with videoSrc := s }
      | none => st'
    else st'
  | none => st

/-- Strategy 4 (`iesdouyin API`): the legacy flat shape, guarded by the
truthiness of `url_list[0]`, with the `playwm -> play` rewrite. -/
def step4 (i : Option (Option (Str × Str × Str))) (st : PState) : PState :=
  match i with
  | some (some (u0, cov, d)) =>
    if u0 ≠ [] then ⟨replaceOnce wmMarker wmPlain u0, cov, d⟩ else st
  | _ => st

/-- The URL strategy 5 constructs from the identifier. -/
def cdnUrl (vid : Str) : Str :=
  "https://www.douyin.com/aweme/v1/play/?video_id=".data ++ vid ++ "&ratio=720p&line=0".data

/-- Strategy 5 (`Direct CDN construction`): accept the constructed URL if
the HEAD probe returned 200. -/
def step5 (vid : Str) (i : Option Bool) (st : PState) : PState :=
  match i with
  | some true => { st with videoSrc := cdnUrl vid }
  | _ => st

/-- The strategy cascade: each later strategy runs only while `videoSrc`
is still empty (`if (!videoSrc)`). -/
def runStrategies (vid : Str) (o : StratOracle) : PState :=
  let st1 := step1 o.s1 initialPState
  let st2 := if st1.videoSrc = [] then step2 o.s2 st1 else st1
  let st3 := if st2.videoSrc = [] then step3 o.s3 st2 else st2
  let st4 := if st3.videoSrc = [] then step4 o.s4 st3 else st3
  if st4.videoSrc = [] then step5 vid o.s5 st4 else st4

/-- First match of `/(https?:\/\/[^\s]+)/` in the pasted text: the
scheme must be followed by at least one character outside JS `\s`
(`jsSpace`); on an empty tail the scan moves on, as the regex engine
does after `[^\s]+` fails. -/
def extractFirstUrl : Str → Option Str
  | [] => none
  | c :: t =>
    if "https://".data.isPrefixOf (c :: t)
        && !(((c :: t).drop 8).takeWhile (fun ch => !jsSpace ch)).isEmpty then
      some ("https://".data ++ ((c :: t).drop 8).takeWhile (fun ch => !jsSpace ch))
    else if "http://".data.isPrefixOf (c :: t)
        && !(((c :: t).drop 7).takeWhile (fun ch => !jsSpace ch)).isEmpty then
      some ("http://".data ++ ((c :: t).drop 7).takeWhile (fun ch => !jsSpace ch))
    else extractFirstUrl t

inductive ParseResponse where
  | badRequest (msg : Str)
  | serverError (msg : Str)
  | failJson (errMsg : Str)
  | okJson (url cover descText : Str)
deriving DecidableEq, Repr

def msgUrlRequired : Str := "URL is required".data

def msgNoId : Str := "无法从链接中提取视频ID，请检查链接格式".data

def msgAllFailed : Str :=
  "解析失败，所有策略均无法获取视频地址。可能原因：1) 视频已删除 2) 服务器IP被限制 3) 链接格式不支持".data

def descPlaceholder : Str := "抖音视频".data

/-- The `POST /api/parse` handler of server.ts.  A missing or empty
`url` field is a 400; a resolution without identifier is a 400; if every
strategy leaves `videoSrc` empty the response is `{success:false,
error}`; otherwise the success payload carries the domain-normalized
media URL, the cover as produced, and the description with the empty
placeholder substitution.  (The 500 catch-all for unexpected internal
exceptions has no trigger inside this deterministic model.) -/
def parseHandler : Option Str → (Str → HttpResp) → (Str → Str → Str) → FbResp →
    StratOracle → ParseResponse
  | none, _, _, _, _ => .badRequest msgUrlRequired
  | some url, net, rr, fb, o =>
    if url = [] then .badRequest msgUrlRequired
    else
      match (resolveShortUrl net rr fb ((extractFirstUrl url).getD url)).videoId with
      | none => .badRequest msgNoId
      | some vid =>
        if (runStrategies vid o).videoSrc = [] then .failJson msgAllFailed
        else
          .okJson (normalizeVideoUrl (runStrategies vid o).videoSrc)
            (runStrategies vid o).coverSrc
            (jsOrS (runStrategies vid o).descText descPlaceholder)

def isSuccessResp : ParseResponse → Bool
  | .okJson _ _ _ => true
  | _ => false

/-- The identifier the pipeline works with, for a given request body. -/
def pipelineVid (url : Str) (net : Str → HttpResp) (rr : Str → Str → Str) (fb : FbResp) :
    Option Str :=
  (resolveShortUrl net rr fb ((extractFirstUrl url).getD url)).videoId

/-! ### Concrete oracles and inputs used by counterexamples and witnesses -/

/-- A network on which every request faults. -/
def netErr : Str → HttpResp := fun _ => .err

/-- A network on which every request redirects to an id-free absolute URL. -/
def netLoop : Str → HttpResp := fun _ => .redirect (some "https://v.douyin.com/hop".data)

/-- Trivial relative-URL resolver oracle. -/
def rrId : Str → Str → Str := fun _ loc => loc

def fbErrNone : FbResp := .fbErr none

/-- Oracle on which all five strategies fault. -/
def allFaultOracle : StratOracle := ⟨none, none, none, none, none⟩

/-- Oracle on which strategies 1–4 fault and the HEAD probe succeeds. -/
def probeOnlyOracle : StratOracle := ⟨none, none, none, none, some true⟩

/-- Oracle on which only strategy 4 (the legacy flat API) succeeds, with a
watermarked media URL and a cover URL that matches a rewrite rule. -/
def legacyOnlyOracle : StratOracle :=
  ⟨none, none, none,
   some (some ("http://aweme.snssdk.com/playwm/7.mp4".data,
               "http://aweme.snssdk.com/cover/7.jpg".data,
               "hello".data)), none⟩

/-!
## Theorems

First the generic scanner lemmas behind the DomainNormalizer idempotence
claim, then the per-claim theorems.
-/

theorem scanRepl_nil (m : Str → Option Nat) (rep : Str) : scanRepl m rep [] = [] := by
  rw [scanRepl]

theorem scanRepl_cons_some {m : Str → Option Nat} (rep : Str) {c : Char} {t : Str} {L : Nat}
    (hm : m (c :: t) = some L) :
    scanRepl m rep (c :: t) = rep ++ scanRepl m rep (t.drop (L - 1)) := by
  rw [scanRepl, hm]

theorem scanRepl_cons_none {m : Str → Option Nat} (rep : Str) {c : Char} {t : Str}
    (hm : m (c :: t) = none) :
    scanRepl m rep (c :: t) = c :: scanRepl m rep t := by
  rw [scanRepl, hm]

/-- A prefix of an append is a prefix of the left part, or extends it. -/
theorem prefix_append_cases {α : Type} {w y : List α} :
    ∀ {x : List α}, w <+: x ++ y → w <+: x ∨ ∃ b, w = x ++ b ∧ b <+: y := by
  intro x
  induction x generalizing w with
  | nil => intro h; exact Or.inr ⟨w, rfl, by simpa using h⟩
  | cons c x' ih =>
    intro h
    rcases w with _ | ⟨d, w'⟩
    · exact Or.inl List.nil_prefix
    · rw [List.cons_append, List.cons_prefix_cons] at h
      obtain ⟨rfl, h'⟩ := h
      rcases ih h' with h'' | ⟨b, rfl, hb⟩
      · exact Or.inl (List.cons_prefix_cons.mpr ⟨rfl, h''⟩)
      · exact Or.inr ⟨b, by simp, hb⟩

/-- An infix of an append lies in one side or spans the boundary. -/
theorem infix_append_cases {α : Type} {w y : List α} :
    ∀ {x : List α}, w <:+: x ++ y →
      w <:+: x ∨ w <:+: y ∨
        ∃ a b, w = a ++ b ∧ a ≠ [] ∧ b ≠ [] ∧ a <:+ x ∧ b <+: y := by
  intro x
  induction x generalizing w with
  | nil => intro h; exact Or.inr (Or.inl (by simpa using h))
  | cons c x' ih =>
    intro h
    rw [List.cons_append, List.infix_cons_iff] at h
    rcases h with h | h
    · have h2 : w <+: (c :: x') ++ y := by simpa using h
      rcases prefix_append_cases h2 with h' | ⟨b, rfl, hb⟩
      · exact Or.inl h'.isInfix
      · rcases b with _ | ⟨b0, b'⟩
        · exact Or.inl (by simp only [List.append_nil]; exact List.infix_refl (c :: x'))
        · exact Or.inr (Or.inr ⟨c :: x', b0 :: b', rfl, by simp, by simp,
            List.suffix_refl _, hb⟩)
    · rcases ih h with h' | h' | ⟨a, b, rfl, ha, hb, hax, hby⟩
      · exact Or.inl (List.infix_cons h')
      · exact Or.inr (Or.inl h')
      · exact Or.inr (Or.inr ⟨a, b, rfl, ha, hb, hax.trans (List.suffix_cons c x'), hby⟩)

/-- A prefix of a scanner output is a prefix of the input, unless it runs
into replaced text, in which case its tail aligns with `rep`. -/
theorem prefix_scanRepl {m : Str → Option Nat} {rep : Str} :
    ∀ s w, w <+: scanRepl m rep s →
      w <+: s ∨ ∃ a b, w = a ++ b ∧ b ≠ [] ∧ (b <+: rep ∨ rep <+: b) := by
  intro s
  induction s with
  | nil =>
    intro w h
    rw [scanRepl_nil] at h
    exact Or.inl (by simpa using h)
  | cons c t ih =>
    intro w h
    rcases hm : m (c :: t) with _ | L
    · rw [scanRepl_cons_none rep hm] at h
      rcases w with _ | ⟨w0, w'⟩
      · exact Or.inl List.nil_prefix
      · rw [List.cons_prefix_cons] at h
        obtain ⟨rfl, h'⟩ := h
        rcases ih w' h' with h'' | ⟨a, b, rfl, hb, hrep⟩
        · exact Or.inl (List.cons_prefix_cons.mpr ⟨rfl, h''⟩)
        · exact Or.inr ⟨w0 :: a, b, by simp, hb, hrep⟩
    · rw [scanRepl_cons_some rep hm] at h
      rcases w with _ | ⟨w0, w'⟩
      · exact Or.inl List.nil_prefix
      · rcases prefix_append_cases h with h' | ⟨b, hw, _⟩
        · exact Or.inr ⟨[], w0 :: w', rfl, by simp, Or.inl h'⟩
        · exact Or.inr ⟨[], w0 :: w', rfl, by simp, Or.inr ⟨b, hw.symm⟩⟩

/-- Replacement cannot manufacture an occurrence: every `P`-occurrence in
the scanner output comes from one in the input. -/
theorem scanRepl_occurs_mono {m : Str → Option Nat} {rep : Str} {P : Str → Prop}
    (hP : SepFacts P rep) :
    ∀ n s, s.length ≤ n → Occurs P (scanRepl m rep s) → Occurs P s := by
  intro n
  induction n with
  | zero =>
    intro s hs h
    rw [List.length_eq_zero.mp (Nat.le_zero.mp hs), scanRepl_nil] at h
    obtain ⟨w, hPw, hinf⟩ := h
    exact absurd (List.infix_nil.mp hinf) (hP.nonempty w hPw)
  | succ n ih =>
    intro s hs h
    rcases s with _ | ⟨c, t⟩
    · rw [scanRepl_nil] at h
      obtain ⟨w, hPw, hinf⟩ := h
      exact absurd (List.infix_nil.mp hinf) (hP.nonempty w hPw)
    · have ht : t.length ≤ n := by simpa using hs
      obtain ⟨w, hPw, hinf⟩ := h
      rcases hm : m (c :: t) with _ | L
      · rw [scanRepl_cons_none rep hm] at hinf
        rcases List.infix_cons_iff.mp hinf with h' | h'
        · rcases w with _ | ⟨w0, w'⟩
          · exact absurd rfl (hP.nonempty [] hPw)
          · rw [List.cons_prefix_cons] at h'
            obtain ⟨rfl, h''⟩ := h'
            rcases prefix_scanRepl t w' h'' with h3 | ⟨a, b, hw', hb, hrep⟩
            · exact ⟨w0 :: w', hPw, (List.cons_prefix_cons.mpr ⟨rfl, h3⟩).isInfix⟩
            · rcases hrep with hrep | hrep
              · exact absurd hrep
                  (hP.no_suffix_pref (w0 :: w') (w0 :: a) b hPw (by simp [hw']) hb)
              · obtain ⟨b', rfl⟩ := hrep
                have hri : rep <:+: w0 :: w' := ⟨w0 :: a, b', by simp [hw']⟩
                exact absurd hri (hP.rep_not_infix (w0 :: w') hPw)
        · obtain ⟨w', hPw', hinf'⟩ := ih t ht ⟨w, hPw, h'⟩
          exact ⟨w', hPw', List.infix_cons hinf'⟩
      · rw [scanRepl_cons_some rep hm] at hinf
        rcases infix_append_cases hinf with h' | h' | ⟨a, b, hw, ha, _, hax, _⟩
        · exact absurd h' (hP.not_in_rep w hPw)
        · have hd : (t.drop (L - 1)).length ≤ n := by
            have := List.length_drop (L - 1) t
            omega
          obtain ⟨w', hPw', hinf'⟩ := ih (t.drop (L - 1)) hd ⟨w, hPw, h'⟩
          exact ⟨w', hPw', List.infix_cons (hinf'.trans (List.drop_suffix _ _).isInfix)⟩
        · obtain ⟨ah, a', rfl⟩ := List.exists_cons_of_ne_nil ha
          have hmem : ah ∈ rep := hax.subset (List.mem_cons_self ah a')
          exact absurd hmem (hP.head_notin w ah (a' ++ b) hPw (by simpa using hw))

/-- After a global replace of its own pattern, no occurrence of that
pattern remains. -/
theorem scanRepl_no_occurs {m : Str → Option Nat} {rep : Str} {P : Str → Prop}
    (hP : SepFacts P rep) (hC : MatcherComplete m P) :
    ∀ n s, s.length ≤ n → ¬ Occurs P (scanRepl m rep s) := by
  intro n
  induction n with
  | zero =>
    intro s hs h
    rw [List.length_eq_zero.mp (Nat.le_zero.mp hs), scanRepl_nil] at h
    obtain ⟨w, hPw, hinf⟩ := h
    exact absurd (List.infix_nil.mp hinf) (hP.nonempty w hPw)
  | succ n ih =>
    intro s hs h
    rcases s with _ | ⟨c, t⟩
    · rw [scanRepl_nil] at h
      obtain ⟨w, hPw, hinf⟩ := h
      exact absurd (List.infix_nil.mp hinf) (hP.nonempty w hPw)
    · have ht : t.length ≤ n := by simpa using hs
      obtain ⟨w, hPw, hinf⟩ := h
      rcases hm : m (c :: t) with _ | L
      · rw [scanRepl_cons_none rep hm] at hinf
        rcases List.infix_cons_iff.mp hinf with h' | h'
        · rcases w with _ | ⟨w0, w'⟩
          · exact absurd rfl (hP.nonempty [] hPw)
          · rw [List.cons_prefix_cons] at h'
            obtain ⟨rfl, h''⟩ := h'
            rcases prefix_scanRepl t w' h'' with h3 | ⟨a, b, hw', hb, hrep⟩
            · exact hC (w0 :: t) (w0 :: w') hPw (List.cons_prefix_cons.mpr ⟨rfl, h3⟩) hm
            · rcases hrep with hrep | hrep
              · exact absurd hrep
                  (hP.no_suffix_pref (w0 :: w') (w0 :: a) b hPw (by simp [hw']) hb)
              · obtain ⟨b', rfl⟩ := hrep
                have hri : rep <:+: w0 :: w' := ⟨w0 :: a, b', by simp [hw']⟩
                exact absurd hri (hP.rep_not_infix (w0 :: w') hPw)
        · exact ih t ht ⟨w, hPw, h'⟩
      · rw [scanRepl_cons_some rep hm] at hinf
        rcases infix_append_cases hinf with h' | h' | ⟨a, b, hw, ha, _, hax, _⟩
        · exact absurd h' (hP.not_in_rep w hPw)
        · have hd : (t.drop (L - 1)).length ≤ n := by
            have := List.length_drop (L - 1) t
            omega
          exact ih (t.drop (L - 1)) hd ⟨w, hPw, h'⟩
        · obtain ⟨ah, a', rfl⟩ := List.exists_cons_of_ne_nil ha
          have hmem : ah ∈ rep := hax.subset (List.mem_cons_self ah a')
          exact absurd hmem (hP.head_notin w ah (a' ++ b) hPw (by simpa using hw))

/-- On a string with no occurrence of the matcher's pattern, the global
replace is the identity. -/
theorem scanRepl_id {m : Str → Option Nat} {rep : Str} {P : Str → Prop}
    (hS : MatcherSound m P) :
    ∀ s, ¬ Occurs P s → scanRepl m rep s = s := by
  intro s
  induction s with
  | nil => intro _; rw [scanRepl_nil]
  | cons c t ih =>
    intro h
    rcases hm : m (c :: t) with _ | L
    · have hnt : ¬ Occurs P t := fun ⟨w, hPw, hinf⟩ => h ⟨w, hPw, List.infix_cons hinf⟩
      rw [scanRepl_cons_none rep hm, ih hnt]
    · obtain ⟨w, hPw, hpre⟩ := hS (c :: t) L hm
      exact absurd ⟨w, hPw, hpre.isInfix⟩ h

/-! ### The four patterns against the replacement text -/

/-- Bounded check implying that no nonempty tail of `pat` is a prefix of
`rep`. -/
theorem no_suffix_pref_of_check (pat rep : Str)
    (h : ∀ k, k < pat.length → ¬ (pat.drop k).isPrefixOf rep = true) :
    ∀ a b, pat = a ++ b → b ≠ [] → ¬ b <+: rep := by
  intro a b hab hb hpre
  have hdrop : pat.drop a.length = b := by rw [hab]; exact List.drop_left a b
  have hlt : a.length < pat.length := by
    have := congrArg List.length hab
    rw [List.length_append] at this
    have hbpos : 0 < b.length := List.length_pos.mpr hb
    omega
  exact h a.length hlt (by rw [hdrop]; exact List.isPrefixOf_iff_prefix.mpr hpre)

theorem litMatch_complete (pat : Str) : MatcherComplete (litMatch pat) (LitP pat) := by
  intro s w hw hpre
  rw [LitP] at hw
  subst hw
  simp [litMatch, List.isPrefixOf_iff_prefix, hpre]

theorem litMatch_sound (pat : Str) : MatcherSound (litMatch pat) (LitP pat) := by
  intro s L h
  unfold litMatch at h
  split_ifs at h with hp
  exact ⟨pat, rfl, List.isPrefixOf_iff_prefix.mp hp⟩

/-- Separation facts for a literal pattern, from bounded decidable checks. -/
theorem sepFacts_lit (pat : Str) (h0 : pat ≠ [])
    (hhead : ∀ c ∈ pat.take 1, c ∉ repStr)
    (hnin : ¬ pat <:+: repStr)
    (hsuf : ∀ k, k < pat.length → ¬ (pat.drop k).isPrefixOf repStr = true)
    (hrni : ¬ repStr <:+: pat) : SepFacts (LitP pat) repStr where
  nonempty := fun w hw => by rw [LitP] at hw; rw [hw]; exact h0
  not_in_rep := fun w hw => by rw [LitP] at hw; rw [hw]; exact hnin
  head_notin := fun w c t hw heq => by
    rw [LitP] at hw
    refine hhead c ?_
    rw [hw] at heq
    rw [heq]
    simp
  no_suffix_pref := fun w a b hw hab hb => by
    rw [LitP] at hw
    exact no_suffix_pref_of_check pat repStr hsuf a b (hw ▸ hab) hb
  rep_not_infix := fun w hw => by rw [LitP] at hw; rw [hw]; exact hrni

theorem sep1 : SepFacts (LitP pat1) repStr :=
  sepFacts_lit pat1 (by decide) (by decide) (by decide) (by decide) (by decide)

theorem sep2 : SepFacts (LitP pat2) repStr :=
  sepFacts_lit pat2 (by decide) (by decide) (by decide) (by decide) (by decide)

theorem sep3 : SepFacts (LitP pat3) repStr :=
  sepFacts_lit pat3 (by decide) (by decide) (by decide) (by decide) (by decide)

/-- Maximal-run behaviour of `takeWhile`/`dropWhile` on a run followed by
a stopper. -/
theorem takeWhile_run {p : Char → Bool} :
    ∀ (ds : Str) {d : Char} {z : Str}, (∀ c ∈ ds, p c) → p d = false →
      (ds ++ d :: z).takeWhile p = ds ∧ (ds ++ d :: z).dropWhile p = d :: z := by
  intro ds
  induction ds with
  | nil =>
    intro d z _ hd
    constructor
    · simp [List.takeWhile_cons, hd]
    · simp [List.dropWhile_cons, hd]
  | cons c ds' ih =>
    intro d z hall hd
    have hc : p c = true := hall c (List.mem_cons_self c ds')
    obtain ⟨ht, hdw⟩ := ih (d := d) (z := z) (fun x hx => hall x (List.mem_cons_of_mem c hx)) hd
    constructor
    · simp [List.takeWhile_cons, hc, ht]
    · simp [List.dropWhile_cons, hc, hdw]

/-- Concrete evaluation of `p4Match` on a well-shaped head. -/
theorem p4Match_eval {ds ls z : Str} (hds : ds ≠ []) (hls : ls ≠ [])
    (hdig : ∀ c ∈ ds, isDigitC c) (hlow : ∀ c ∈ ls, isLowerC c) :
    p4Match ('v' :: (ds ++ '-' :: (ls ++ (tail4 ++ z))))
      = some (1 + ds.length + 1 + ls.length + tail4.length) := by
  have hdsrun := takeWhile_run (p := isDigitC) (d := '-') (z := ls ++ (tail4 ++ z)) ds
    hdig (show isDigitC '-' = false by decide)
  have ht4 : tail4 = '.' :: "douyinvod.com".data := by decide
  have hshape2 : ls ++ (tail4 ++ z) = ls ++ '.' :: ("douyinvod.com".data ++ z) := by
    rw [ht4]; simp
  have hlsrun := takeWhile_run (p := isLowerC) (d := '.') (z := "douyinvod.com".data ++ z) ls
    hlow (show isLowerC '.' = false by decide)
  have hdsne : ds.isEmpty = false := by
    cases ds with
    | nil => exact absurd rfl hds
    | cons a l => rfl
  have hlsne : ls.isEmpty = false := by
    cases ls with
    | nil => exact absurd rfl hls
    | cons a l => rfl
  have hp : tail4.isPrefixOf ('.' :: ("douyinvod.com".data ++ z)) = true := by
    rw [ht4]
    exact List.isPrefixOf_iff_prefix.mpr ⟨z, by simp⟩
  rw [p4Match]
  simp only [if_pos rfl, hdsrun.1, hdsrun.2, hdsne, Bool.false_eq_true, if_false]
  rw [hshape2]
  simp only [if_true, hlsrun.1, hlsrun.2, hlsne, Bool.false_eq_true, if_false, hp]

theorem p4Match_complete : MatcherComplete p4Match IsP4 := by
  intro s w hw hpre hnone
  obtain ⟨ds, ls, hds, hls, hdig, hlow, rfl⟩ := hw
  obtain ⟨sfx, rfl⟩ := hpre
  have hshape : 'v' :: (ds ++ '-' :: (ls ++ tail4)) ++ sfx
      = 'v' :: (ds ++ '-' :: (ls ++ (tail4 ++ sfx))) := by simp
  rw [hshape, p4Match_eval hds hls hdig hlow] at hnone
  exact Option.noConfusion hnone

theorem p4Match_sound : MatcherSound p4Match IsP4 := by
  intro s L h
  rcases s with _ | ⟨c, r1⟩
  · simp [p4Match] at h
  · simp only [p4Match] at h
    by_cases hv : c = 'v'
    · subst hv
      rw [if_pos rfl] at h
      by_cases hde : (r1.takeWhile isDigitC).isEmpty
      · rw [if_pos hde] at h
        exact absurd h (by simp)
      · rw [if_neg hde] at h
        rcases hdw : r1.dropWhile isDigitC with _ | ⟨d, r2⟩
        · simp only [hdw] at h
          exact absurd h (by simp)
        · simp only [hdw] at h
          by_cases hd : d = '-'
          · subst hd
            rw [if_pos rfl] at h
            by_cases hle : (r2.takeWhile isLowerC).isEmpty
            · rw [if_pos hle] at h
              exact absurd h (by simp)
            · rw [if_neg hle] at h
              by_cases htp : tail4.isPrefixOf (r2.dropWhile isLowerC)
              · obtain ⟨zz, hz⟩ := List.isPrefixOf_iff_prefix.mp htp
                refine ⟨'v' :: (r1.takeWhile isDigitC ++ '-' :: (r2.takeWhile isLowerC ++ tail4)),
                  ⟨r1.takeWhile isDigitC, r2.takeWhile isLowerC, ?_, ?_, ?_, ?_, rfl⟩, ?_⟩
                · intro hn
                  rw [hn] at hde
                  exact hde rfl
                · intro hn
                  rw [hn] at hle
                  exact hle rfl
                · exact fun c hc => List.mem_takeWhile_imp hc
                · exact fun c hc => List.mem_takeWhile_imp hc
                · refine ⟨zz, ?_⟩
                  have h1 : r1.takeWhile isDigitC ++ ('-' :: r2) = r1 := by
                    rw [← hdw]
                    exact List.takeWhile_append_dropWhile isDigitC r1
                  have h2 : r2.takeWhile isLowerC ++ r2.dropWhile isLowerC = r2 :=
                    List.takeWhile_append_dropWhile isLowerC r2
                  calc 'v' :: (r1.takeWhile isDigitC
                        ++ '-' :: (r2.takeWhile isLowerC ++ tail4)) ++ zz
                      = 'v' :: (r1.takeWhile isDigitC
                        ++ '-' :: (r2.takeWhile isLowerC ++ (tail4 ++ zz))) := by simp
                    _ = 'v' :: (r1.takeWhile isDigitC
                        ++ '-' :: (r2.takeWhile isLowerC ++ r2.dropWhile isLowerC)) := by
                          rw [hz]
                    _ = 'v' :: (r1.takeWhile isDigitC ++ '-' :: r2) := by rw [h2]
                    _ = 'v' :: r1 := by rw [h1]
              · rw [if_neg htp] at h
                exact absurd h (by simp)
          · rw [if_neg hd] at h
            exact absurd h (by simp)
    · rw [if_neg hv] at h
      exact absurd h (by simp)

/-- Separation facts for the `douyinvod` pattern language.  The
interesting field is `rep_not_infix`: `www.douyin.com` cannot occur
inside a pattern word because the word has exactly two dots, both inside
its fixed tail `.douyinvod.com`, and no alignment of the replacement
against that tail matches. -/
theorem sepFacts_p4 : SepFacts IsP4 repStr where
  nonempty := by
    rintro w ⟨ds, ls, _, _, _, _, rfl⟩
    exact List.cons_ne_nil _ _
  not_in_rep := by
    rintro w ⟨ds, ls, _, _, _, _, rfl⟩ hinf
    have hmem : ('-' : Char) ∈ 'v' :: (ds ++ '-' :: (ls ++ tail4)) := by simp
    exact absurd (hinf.subset hmem) (by decide)
  head_notin := by
    rintro w c t ⟨ds, ls, _, _, _, _, rfl⟩ heq
    rw [List.cons.injEq] at heq
    rw [← heq.1]
    decide
  no_suffix_pref := by
    rintro w a b ⟨ds, ls, hds, hls, hdig, hlow, rfl⟩ hab hbne hpre
    have hbsuf : b <:+ 'v' :: (ds ++ '-' :: (ls ++ tail4)) := ⟨a, hab.symm⟩
    have ht4suf : tail4 <:+ 'v' :: (ds ++ '-' :: (ls ++ tail4)) :=
      ⟨'v' :: (ds ++ '-' :: ls), by simp⟩
    have hblen : b.length ≤ repStr.length := hpre.length_le
    rcases List.suffix_or_suffix_of_suffix hbsuf ht4suf with hc | hc
    · obtain ⟨a2, ha2⟩ := hc
      exact no_suffix_pref_of_check tail4 repStr (by decide) a2 b ha2.symm hbne hpre
    · have hlen : tail4.length ≤ b.length := hc.length_le
      have h14 : repStr.length = tail4.length := by decide
      have hbt : tail4 = b := hc.eq_of_length (by omega)
      rw [← hbt] at hpre
      exact absurd hpre (by decide)
  rep_not_infix := by
    rintro w ⟨ds, ls, hds, hls, hdig, hlow, rfl⟩ hinf
    obtain ⟨x, y, hxy⟩ := hinf
    have hdotds : ('.' : Char) ∉ ds := fun hm => absurd (hdig '.' hm) (by decide)
    have hdotls : ('.' : Char) ∉ ls := fun hm => absurd (hlow '.' hm) (by decide)
    have hcds : List.count '.' ds = 0 := List.count_eq_zero.mpr hdotds
    have hcls : List.count '.' ls = 0 := List.count_eq_zero.mpr hdotls
    have hct4 : List.count '.' tail4 = 2 := by decide
    have hcw : List.count '.' ('v' :: (ds ++ '-' :: (ls ++ tail4))) = 2 := by
      simp only [List.count_cons, List.count_append, hcds, hcls, hct4,
        show (('v' : Char) == '.') = false from by decide,
        show (('-' : Char) == '.') = false from by decide,
        Bool.false_eq_true, if_false]
    have hcrep : List.count '.' repStr = 2 := by decide
    have hcxy := congrArg (List.count '.') hxy
    rw [List.count_append, List.count_append, hcrep, hcw] at hcxy
    have hdoty : ('.' : Char) ∉ y := List.count_eq_zero.mp (by omega)
    have hysuf : y <:+ 'v' :: (ds ++ '-' :: (ls ++ tail4)) := ⟨x ++ repStr, by simpa using hxy⟩
    have ht4suf : tail4 <:+ 'v' :: (ds ++ '-' :: (ls ++ tail4)) :=
      ⟨'v' :: (ds ++ '-' :: ls), by simp⟩
    have h14t : tail4.length = 14 := by decide
    have h14r : repStr.length = 14 := by decide
    have hylen : y.length ≤ 3 := by
      by_contra hgt
      push_neg at hgt
      rcases List.suffix_or_suffix_of_suffix hysuf ht4suf with hc | hc
      · obtain ⟨p, hp⟩ := hc
        have hk : p.length ≤ 10 := by
          have := congrArg List.length hp
          rw [List.length_append] at this
          omega
        have hdropy : tail4.drop p.length = y := by rw [← hp]; exact List.drop_left p y
        have hcheck : ∀ k, k ≤ 10 → ('.' : Char) ∈ tail4.drop k := by decide
        exact hdoty (hdropy ▸ hcheck p.length hk)
      · exact hdoty (hc.subset (by decide : ('.' : Char) ∈ tail4))
    have hry : repStr ++ y <:+ 'v' :: (ds ++ '-' :: (ls ++ tail4)) := ⟨x, by simpa using hxy⟩
    rcases List.suffix_or_suffix_of_suffix hry ht4suf with hc | hc
    · have hlen := hc.length_le
      rw [List.length_append] at hlen
      have hynil : y = [] := List.length_eq_zero.mp (by omega)
      subst hynil
      rw [List.append_nil] at hc
      have heq := hc.eq_of_length (by omega)
      exact absurd heq (by decide)
    · obtain ⟨p, hp⟩ := hc
      have hplen : p.length = y.length := by
        have := congrArg List.length hp
        rw [List.length_append, List.length_append] at this
        omega
      have hdrop : (p ++ tail4).drop p.length = tail4 := List.drop_left p tail4
      rw [hp, List.drop_append_eq_append_drop] at hdrop
      have hz : p.length - repStr.length = 0 := by omega
      rw [hz, List.drop_zero] at hdrop
      have hll : (repStr.drop p.length).length = 14 - p.length := by
        rw [List.length_drop]
        omega
      have htake := congrArg (List.take (repStr.drop p.length).length) hdrop
      rw [List.take_left] at htake
      rw [hll] at htake
      have hcheck : ∀ k, k ≤ 3 → repStr.drop k ≠ tail4.take (14 - k) := by decide
      exact hcheck p.length (by omega) htake

/-- Replacement by a different rule keeps a string clean of a pattern it
was already clean of. -/
theorem scanRepl_preserves_clean {m : Str → Option Nat} {rep : Str} {P : Str → Prop}
    (hP : SepFacts P rep) {s : Str} (h : ¬ Occurs P s) :
    ¬ Occurs P (scanRepl m rep s) :=
  fun hocc => h (scanRepl_occurs_mono hP s.length s le_rfl hocc)

/-- After `normalizeVideoUrl`, none of the four table patterns occurs in
the result. -/
theorem normalize_clean (u : Str) :
    ¬ Occurs (LitP pat1) (normalizeVideoUrl u) ∧
    ¬ Occurs (LitP pat2) (normalizeVideoUrl u) ∧
    ¬ Occurs (LitP pat3) (normalizeVideoUrl u) ∧
    ¬ Occurs IsP4 (normalizeVideoUrl u) := by
  unfold normalizeVideoUrl
  refine ⟨?_, ?_, ?_, ?_⟩
  · exact scanRepl_preserves_clean sep1 (scanRepl_preserves_clean sep1
      (scanRepl_preserves_clean sep1
        (scanRepl_no_occurs sep1 (litMatch_complete pat1) u.length u le_rfl)))
  · exact scanRepl_preserves_clean sep2 (scanRepl_preserves_clean sep2
      (scanRepl_no_occurs sep2 (litMatch_complete pat2) _ _ le_rfl))
  · exact scanRepl_preserves_clean sep3
      (scanRepl_no_occurs sep3 (litMatch_complete pat3) _ _ le_rfl)
  · exact scanRepl_no_occurs sepFacts_p4 p4Match_complete _ _ le_rfl

/-- C7: `DomainNormalizer` is idempotent: for every URL string `u`,
`normalize (normalize u) = normalize u`, because after one pass no source
pattern of the rule table occurs in the result (the replacement host
`www.douyin.com` cannot combine with surrounding text to recreate one). -/
theorem C7_normalize_idempotent (u : Str) :
    normalizeVideoUrl (normalizeVideoUrl u) = normalizeVideoUrl u := by
  obtain ⟨h1, h2, h3, h4⟩ := normalize_clean u
  calc normalizeVideoUrl (normalizeVideoUrl u)
      = scanRepl p4Match repStr (scanRepl (litMatch pat3) repStr
          (scanRepl (litMatch pat2) repStr
            (scanRepl (litMatch pat1) repStr (normalizeVideoUrl u)))) := rfl
    _ = normalizeVideoUrl u := by
        rw [scanRepl_id (litMatch_sound pat1) _ h1,
            scanRepl_id (litMatch_sound pat2) _ h2,
            scanRepl_id (litMatch_sound pat3) _ h3,
            scanRepl_id p4Match_sound _ h4]




/-! ### DeepStructureSearch under JS semantics: fidelity probes, sibling
rule and refinement (claim C5) -/

/-- The legacy guard accepts a plain-string `url_list` (`"ab".length >
0`) and indexes its first character: the traversal returns media URL
`"a"`, as the source does. -/
theorem jsFind_string_url_list :
    findVideoInObjectJs strListNode
      = .ok (some ⟨some (.str "a".data), .str [], .str []⟩) := by
  simp only [strListNode, findVideoInObjectJs]
  rfl

/-- A truthy non-string `playApi` raises a `TypeError` that escapes the
child loop and aborts the whole traversal: the outcome is the fault,
not a continued search. -/
theorem jsFind_throw_aborts : findVideoInObjectJs throwNode = .error () := by
  have hin : findVideoInObjectJs throwInner = .error () := by
    simp only [throwInner, findVideoInObjectJs]
    rfl
  simp only [throwNode, findVideoInObjectJs, findJsFields, hin]
  rfl

/-- A length-bearing object passes the `url_list?.length > 0` guard and
is indexed through its `"0"` property. -/
theorem jsFind_length_object :
    findVideoInObjectJs lenObjNode
      = .ok (some ⟨some (.str "u".data), .str [], .str []⟩) := by
  simp only [lenObjNode, findVideoInObjectJs]
  rfl

theorem exceptFindSome?_congr {α β : Type} {f g : α → Except Unit (Option β)} :
    ∀ (l : List α), (∀ a ∈ l, f a = g a) → exceptFindSome? f l = exceptFindSome? g l := by
  intro l
  induction l with
  | nil => intro _; rfl
  | cons c t ih =>
    intro h
    rw [exceptFindSome?, exceptFindSome?, h c (List.mem_cons_self c t),
      ih (fun a ha => h a (List.mem_cons_of_mem c ha))]

theorem exceptFindSome?_map {α γ β : Type} (g : α → γ) (f : γ → Except Unit (Option β)) :
    ∀ l : List α, exceptFindSome? f (l.map g) = exceptFindSome? (fun a => f (g a)) l := by
  intro l
  induction l with
  | nil => rfl
  | cons a t ih => simp only [List.map_cons, exceptFindSome?, ih]

theorem exceptFindSome?_attach {α β : Type} (l : List α) (f : α → Except Unit (Option β)) :
    exceptFindSome? (fun c => f c.1) l.attach = exceptFindSome? f l := by
  have h := exceptFindSome?_map (Subtype.val : {x // x ∈ l} → α) f l.attach
  have h2 : List.map Subtype.val l.attach = l := by simp
  rw [h2] at h
  exact h.symm

/-- The source's child loop equals an exception-propagating `findSome?`
that skips child records with a falsy media URL. -/
theorem findJsElems_eq (elems : List Json) :
    findJsElems elems
      = exceptFindSome?
          (fun c => (findVideoInObjectJs c).map (fun o => o.filter (fun r => jTruthy r.videoSrcV)))
          elems := by
  induction elems with
  | nil => rfl
  | cons c rest ih =>
    cases h : findVideoInObjectJs c with
    | error e => simp [findJsElems, exceptFindSome?, h, Except.map]
    | ok o =>
      cases o with
      | none => simp [findJsElems, exceptFindSome?, h, Except.map, Option.filter, ih]
      | some r =>
        cases hv : jTruthy r.videoSrcV
        · simp [findJsElems, exceptFindSome?, h, hv, Except.map, Option.filter, ih]
        · simp [findJsElems, exceptFindSome?, h, hv, Except.map, Option.filter]

theorem findJsFields_eq (fields : List (Str × Json)) :
    findJsFields fields
      = exceptFindSome?
          (fun q =>
            (findVideoInObjectJs q.2).map (fun o => o.filter (fun r => jTruthy r.videoSrcV)))
          fields := by
  induction fields with
  | nil => rfl
  | cons q rest ih =>
    obtain ⟨k, v⟩ := q
    cases h : findVideoInObjectJs v with
    | error e => simp [findJsFields, exceptFindSome?, h, Except.map]
    | ok o =>
      cases o with
      | none => simp [findJsFields, exceptFindSome?, h, Except.map, Option.filter, ih]
      | some r =>
        cases hv : jTruthy r.videoSrcV
        · simp [findJsFields, exceptFindSome?, h, hv, Except.map, Option.filter, ih]
        · simp [findJsFields, exceptFindSome?, h, hv, Except.map, Option.filter]

theorem findJs_eq_amended_aux :
    ∀ n j, sizeOf j ≤ n → findVideoInObjectJs j = searchAmendedJs j := by
  intro n
  induction n with
  | zero =>
    intro j hj
    cases j <;> simp_arith at hj
  | succ n ih =>
    intro j hj
    cases j with
    | null =>
      rw [searchAmendedJs]
      · rfl
      all_goals exact fun _ h => Json.noConfusion h
    | bool b =>
      rw [searchAmendedJs]
      · rfl
      all_goals exact fun _ h => Json.noConfusion h
    | num m =>
      rw [searchAmendedJs]
      · rfl
      all_goals exact fun _ h => Json.noConfusion h
    | str s =>
      rw [searchAmendedJs]
      · rfl
      all_goals exact fun _ h => Json.noConfusion h
    | arr elems =>
      rw [searchAmendedJs]
      simp only [findVideoInObjectJs]
      cases hsc : shapeCheckJs (.arr elems) with
      | error e => simp only [hsc]
      | ok o =>
        cases o with
        | some r => simp only [hsc]
        | none =>
          simp only [hsc]
          rw [findJsElems_eq]
          have hcong : exceptFindSome?
              (fun c =>
                (findVideoInObjectJs c).map (fun o => o.filter (fun r => jTruthy r.videoSrcV)))
              elems
              = exceptFindSome?
                (fun c =>
                  (searchAmendedJs c).map (fun o => o.filter (fun r => jTruthy r.videoSrcV)))
                elems := by
            refine exceptFindSome?_congr elems (fun c hc => ?_)
            have hlt : sizeOf c < sizeOf (Json.arr elems) := by
              have := List.sizeOf_lt_of_mem hc
              simp only [Json.arr.sizeOf_spec]
              omega
            rw [ih c (by omega)]
          rw [hcong]
          exact (exceptFindSome?_attach elems
            (fun c =>
              (searchAmendedJs c).map (fun o => o.filter (fun r => jTruthy r.videoSrcV)))).symm
    | obj fields =>
      rw [searchAmendedJs]
      simp only [findVideoInObjectJs]
      cases hsc : shapeCheckJs (.obj fields) with
      | error e => simp only [hsc]
      | ok o =>
        cases o with
        | some r => simp only [hsc]
        | none =>
          simp only [hsc]
          rw [findJsFields_eq]
          have hcong : exceptFindSome?
              (fun q =>
                (findVideoInObjectJs q.2).map (fun o => o.filter (fun r => jTruthy r.videoSrcV)))
              fields
              = exceptFindSome?
                (fun q =>
                  (searchAmendedJs q.2).map (fun o => o.filter (fun r => jTruthy r.videoSrcV)))
                fields := by
            refine exceptFindSome?_congr fields (fun q hq => ?_)
            have hlt : sizeOf q.2 < sizeOf (Json.obj fields) := by
              have h1 := List.sizeOf_lt_of_mem hq
              have h2 : sizeOf q.2 < sizeOf q := by
                obtain ⟨k, v⟩ := q
                simp_arith
              simp only [Json.obj.sizeOf_spec]
              omega
            rw [ih q.2 (by omega)]
          rw [hcong]
          exact (exceptFindSome?_attach fields
            (fun q =>
              (searchAmendedJs q.2).map (fun o => o.filter (fun r => jTruthy r.videoSrcV)))).symm

/-- C5: the spec's sibling rule ("return the first non-absent result from
any child") disagrees with the code on a tree whose first child yields a
record with an empty media URL: the code skips it and returns the second
child's record. -/
theorem C5_counterexample :
    findVideoInObjectJs c5tree = .ok (some ⟨some (.str "https://b".data), .str [], .str []⟩) ∧
    searchSpecJs c5tree = .ok (some ⟨some (.str []), .str [], .str []⟩) ∧
    findVideoInObjectJs c5tree ≠ searchSpecJs c5tree := by
  have hlegC : findVideoInObjectJs legacyEmptyNode
      = .ok (some ⟨some (.str []), .str [], .str []⟩) := by
    simp only [legacyEmptyNode, findVideoInObjectJs]
    rfl
  have hmodC : findVideoInObjectJs modernBNode
      = .ok (some ⟨some (.str "https://b".data), .str [], .str []⟩) := by
    simp only [modernBNode, findVideoInObjectJs]
    rfl
  have h1 : findVideoInObjectJs c5tree
      = .ok (some ⟨some (.str "https://b".data), .str [], .str []⟩) := by
    simp only [c5tree, findVideoInObjectJs, findJsFields, hlegC, hmodC]
    rfl
  have hlegS : searchSpecJs legacyEmptyNode
      = .ok (some ⟨some (.str []), .str [], .str []⟩) := by
    simp only [legacyEmptyNode]
    rw [searchSpecJs]
    rfl
  have h2 : searchSpecJs c5tree = .ok (some ⟨some (.str []), .str [], .str []⟩) := by
    have hstep : searchSpecJs c5tree
        = exceptFindSome? (fun p => searchSpecJs p.1.2)
            [("a".data, legacyEmptyNode), ("b".data, modernBNode)].attach := by
      simp only [c5tree]
      rw [searchSpecJs]
      rfl
    have hat := exceptFindSome?_attach
      [("a".data, legacyEmptyNode), ("b".data, modernBNode)] (fun q => searchSpecJs q.2)
    have hrest : exceptFindSome? (fun q => searchSpecJs q.2)
        [("a".data, legacyEmptyNode), ("b".data, modernBNode)]
        = .ok (some ⟨some (.str []), .str [], .str []⟩) := by
      simp only [exceptFindSome?, hlegS]
    exact hstep.trans (hat.trans hrest)
  refine ⟨h1, h2, fun heq => ?_⟩
  rw [h1, h2] at heq
  have hd := congrArg jsRecHit heq
  revert hd
  decide

/-- C5 (amended): under full JS semantics `findVideoInObjectJs` checks
the three shapes in fixed order at each node, returns the first shape
match without searching siblings, propagates a `TypeError` (truthy
non-string `playApi`, or missing/non-string first `url_list` entry of a
matched legacy shape) out of the whole traversal, and otherwise
recurses into the children in key iteration order, returning the first
child result that is non-absent *and* has a truthy media URL; it
returns absent when no node matches. -/
theorem C5_first_match_semantics (j : Json) : findVideoInObjectJs j = searchAmendedJs j :=
  findJs_eq_amended_aux (sizeOf j) j le_rfl

/-- C6: on a self-referential object (modelled in the heap semantics),
the recursion of `findVideoInObject` never returns, for any recursion
budget: the source has no recursion ceiling. -/
theorem C6_counterexample : heapDiverges cycHeap 0 := by
  intro fuel
  induction fuel with
  | zero => simp [findHeap]
  | succ n ih => simp [findHeap, findHeapList, cycHeap, ih]

/-- C6 (amended): on every finite tree the traversal terminates (the
model's recursion is structural), and a match is found at any nesting
depth — there is no recursion ceiling; only a cyclic self-referential
input (see the counterexample) makes the recursion diverge. -/
theorem C6_no_ceiling (n : Nat) :
    findVideoInObject (deepNest n) = some ⟨"https://m".data, [], []⟩ ∧
    findVideoInObject (deepPlain n) = none := by
  induction n with
  | zero =>
    constructor
    · simp [deepNest, matchLeaf, findVideoInObject, shapeCheck, getField, ogetField,
        jTruthy, jStr?, index0, jsOrS, strOrEmpty]
    · simp [deepPlain, findVideoInObject]
  | succ n ih =>
    have hsc : ∀ X : Json, shapeCheck (.obj [("wrap".data, X)]) = none := fun X => rfl
    constructor
    · rw [deepNest]
      simp only [findVideoInObject, hsc, findFields, ih.1]
      simp
    · rw [deepPlain]
      simp only [findVideoInObject, hsc, findFields, ih.2]

/-- `replaceOnce` rewrites exactly the leftmost occurrence of `pat`. -/
theorem replaceOnce_split {pat : Str} (rep : Str) (hpat : pat ≠ []) :
    ∀ s, pat <:+: s →
      s = breakBefore pat s ++ pat ++ breakAfter pat s ∧
      replaceOnce pat rep s = breakBefore pat s ++ rep ++ breakAfter pat s := by
  intro s
  induction s with
  | nil => intro h; exact absurd (List.infix_nil.mp h) hpat
  | cons c t ih =>
    intro h
    by_cases hp : pat.isPrefixOf (c :: t)
    · obtain ⟨y, hy⟩ := List.isPrefixOf_iff_prefix.mp hp
      constructor
      · rw [breakBefore, breakAfter, if_pos hp, if_pos hp, List.nil_append, ← hy,
          List.drop_left]
      · rw [replaceOnce, if_pos hp, breakBefore, breakAfter, if_pos hp, if_pos hp,
          List.nil_append]
    · have ht : pat <:+: t := by
        rcases List.infix_cons_iff.mp h with h' | h'
        · exact absurd (List.isPrefixOf_iff_prefix.mpr h') hp
        · exact h'
      obtain ⟨ih1, ih2⟩ := ih ht
      constructor
      · rw [breakBefore, breakAfter, if_neg hp, if_neg hp, List.cons_append,
          List.cons_append]
        exact congrArg (List.cons c) ih1
      · rw [replaceOnce, if_neg hp, breakBefore, breakAfter, if_neg hp, if_neg hp,
          List.cons_append, List.cons_append]
        exact congrArg (List.cons c) ih2

/-- The legacy play-address shape produces the `playwm -> play` rewritten
URL, passing cover and description through. -/
theorem find_mkLegacy (u cov d : Str) :
    findVideoInObject (mkLegacy u cov d)
      = some ⟨replaceOnce wmMarker wmPlain u, cov, d⟩ := by
  simp only [mkLegacy, findVideoInObject]
  rfl

/-- C8: when a media URL obtained through the legacy play-address shape of
the deep search, or through the mobile-scrape pattern capture, contains
the watermark marker `playwm`, the returned URL carries the (leftmost)
marker occurrence rewritten to `play`. -/
theorem C8_watermark_rewrite (u cov d cap : Str) (hu : wmMarker <:+: u)
    (hcap : wmMarker <:+: mobilePreprocess cap) :
    u = breakBefore wmMarker u ++ wmMarker ++ breakAfter wmMarker u ∧
    findVideoInObject (mkLegacy u cov d)
      = some ⟨breakBefore wmMarker u ++ wmPlain ++ breakAfter wmMarker u, cov, d⟩ ∧
    mobilePreprocess cap
      = breakBefore wmMarker (mobilePreprocess cap) ++ wmMarker
          ++ breakAfter wmMarker (mobilePreprocess cap) ∧
    mobileProcess cap
      = breakBefore wmMarker (mobilePreprocess cap) ++ wmPlain
          ++ breakAfter wmMarker (mobilePreprocess cap) := by
  have hne : wmMarker ≠ [] := by decide
  obtain ⟨hu1, hu2⟩ := replaceOnce_split wmPlain hne u hu
  obtain ⟨hc1, hc2⟩ := replaceOnce_split wmPlain hne (mobilePreprocess cap) hcap
  refine ⟨hu1, ?_, hc1, ?_⟩
  · rw [find_mkLegacy, hu2]
  · rw [mobileProcess, hc2]

theorem C8_watermark_witness :
    "https://a/playwm/1.mp4".data
        = breakBefore wmMarker "https://a/playwm/1.mp4".data ++ wmMarker
          ++ breakAfter wmMarker "https://a/playwm/1.mp4".data ∧
    findVideoInObject (mkLegacy "https://a/playwm/1.mp4".data [] [])
        = some ⟨breakBefore wmMarker "https://a/playwm/1.mp4".data ++ wmPlain
            ++ breakAfter wmMarker "https://a/playwm/1.mp4".data, [], []⟩ ∧
    mobilePreprocess "\\u002F\\u002Fb\\u002Fplaywm\\u002F2".data
        = breakBefore wmMarker (mobilePreprocess "\\u002F\\u002Fb\\u002Fplaywm\\u002F2".data)
            ++ wmMarker
            ++ breakAfter wmMarker (mobilePreprocess "\\u002F\\u002Fb\\u002Fplaywm\\u002F2".data) ∧
    mobileProcess "\\u002F\\u002Fb\\u002Fplaywm\\u002F2".data
        = breakBefore wmMarker (mobilePreprocess "\\u002F\\u002Fb\\u002Fplaywm\\u002F2".data)
            ++ wmPlain
            ++ breakAfter wmMarker (mobilePreprocess "\\u002F\\u002Fb\\u002Fplaywm\\u002F2".data) :=
  C8_watermark_rewrite "https://a/playwm/1.mp4".data [] []
    "\\u002F\\u002Fb\\u002Fplaywm\\u002F2".data
    (by decide)
    (by
      have heval : mobilePreprocess "\\u002F\\u002Fb\\u002Fplaywm\\u002F2".data
          = "https://b/playwm/2".data := by
        simp [mobilePreprocess, unescapeSlashes, scanRepl, litMatch, escU002F, escSlash]
      rw [heval]
      decide)

/-! ### ShortLinkResolver claims (C3, C4) -/

/-- C3: when the input URL already carries an identifier, `resolveShortUrl`
returns that URL and identifier immediately, issuing no network request
(no manual-chase request and no fallback request). -/
theorem C3_direct_id (net : Str → HttpResp) (rr : Str → Str → Str) (fb : FbResp)
    (url vid : Str) (h : extractVideoId url = some vid) :
    resolveShortUrl net rr fb url = ⟨url, some vid, 0, false⟩ := by
  rw [resolveShortUrl, h]

theorem C3_direct_id_witness :
    extractVideoId "https://www.douyin.com/video/712".data = some "712".data ∧
    resolveShortUrl netErr rrId fbErrNone "https://www.douyin.com/video/712".data
      = ⟨"https://www.douyin.com/video/712".data, some "712".data, 0, false⟩ :=
  ⟨by decide, C3_direct_id netErr rrId fbErrNone _ _ (by decide)⟩

theorem fallbackResolve_reqs (fb : FbResp) (s : Str) (r : Nat) :
    (fallbackResolve fb s r).manualReqs = r := by
  cases fb <;> rfl

theorem fallbackResolve_used (fb : FbResp) (s : Str) (r : Nat) :
    (fallbackResolve fb s r).usedFallback = true := by
  cases fb <;> rfl

theorem manualChase_reqs_le (net : Str → HttpResp) (rr : Str → Str → Str) (fb : FbResp)
    (shortUrl : Str) :
    ∀ fuel cur reqs, (manualChase net rr fb shortUrl fuel cur reqs).manualReqs ≤ reqs + fuel := by
  intro fuel
  induction fuel with
  | zero =>
    intro cur reqs
    simp [manualChase, fallbackResolve_reqs]
  | succ n ih =>
    intro cur reqs
    rw [manualChase]
    have hrec : ∀ X, (manualChase net rr fb shortUrl n X (reqs + 1)).manualReqs
        ≤ reqs + (n + 1) := fun X => by
      have := ih X (reqs + 1)
      omega
    repeat' split
    all_goals first
      | apply hrec
      | (simp only [fallbackResolve_reqs]; omega)

theorem manualChase_all_redirect (net : Str → HttpResp) (rr : Str → Str → Str) (fb : FbResp)
    (shortUrl : Str) (nx : Str → Str)
    (hnet : ∀ u, net u = .redirect (some (nx u)))
    (hnext : ∀ u, extractVideoId (chaseNext rr u (nx u)) = none) :
    ∀ fuel cur reqs, manualChase net rr fb shortUrl fuel cur reqs
        = fallbackResolve fb shortUrl (reqs + fuel) := by
  intro fuel
  induction fuel with
  | zero => intro cur reqs; rw [manualChase]; rfl
  | succ n ih =>
    intro cur reqs
    rw [manualChase]
    rw [hnet cur]
    simp only [hnext cur]
    rw [ih (chaseNext rr cur (nx cur)) (reqs + 1)]
    congr 1
    omega

/-- C4: the manual redirect chase issues at most 10 requests; on a
redirect chain that never exposes an identifier the chase exhausts its 10
hops without raising and the auto-follow fallback request is issued, so
`resolveShortUrl` returns a result (it is a total function). -/
theorem C4_hop_bound (net : Str → HttpResp) (rr : Str → Str → Str) (fb : FbResp)
    (url : Str) (nx : Str → Str) :
    (resolveShortUrl net rr fb url).manualReqs ≤ 10 ∧
    (extractVideoId url = none →
      (∀ u, net u = .redirect (some (nx u))) →
      (∀ u, extractVideoId (chaseNext rr u (nx u)) = none) →
      (resolveShortUrl net rr fb url).usedFallback = true ∧
      (resolveShortUrl net rr fb url).manualReqs = 10) := by
  constructor
  · rw [resolveShortUrl]
    cases h : extractVideoId url with
    | some vid => simp
    | none =>
      have := manualChase_reqs_le net rr fb url 10 url 0
      simpa using this
  · intro hid hnet hnext
    rw [resolveShortUrl, hid, manualChase_all_redirect net rr fb url nx hnet hnext 10 url 0]
    exact ⟨fallbackResolve_used fb url 10, fallbackResolve_reqs fb url 10⟩

theorem C4_hop_bound_witness :
    (resolveShortUrl netLoop rrId fbErrNone "https://v.douyin.com/abc".data).manualReqs ≤ 10 ∧
    (resolveShortUrl netLoop rrId fbErrNone "https://v.douyin.com/abc".data).usedFallback = true ∧
    (resolveShortUrl netLoop rrId fbErrNone "https://v.douyin.com/abc".data).manualReqs = 10 := by
  have h := C4_hop_bound netLoop rrId fbErrNone "https://v.douyin.com/abc".data
    (fun _ => "https://v.douyin.com/hop".data)
  have h2 := h.2 (by decide) (fun _ => rfl) (fun _ => rfl)
  exact ⟨h.1, h2.1, h2.2⟩

/-! ### Pipeline claims (C1, C2, C9, C10) -/

theorem scanRepl_ne_nil (m : Str → Option Nat) {rep : Str} (hrep : rep ≠ []) :
    ∀ {s : Str}, s ≠ [] → scanRepl m rep s ≠ [] := by
  intro s hs
  rcases s with _ | ⟨c, t⟩
  · exact absurd rfl hs
  · rcases hm : m (c :: t) with _ | L
    · rw [scanRepl_cons_none rep hm]
      exact List.cons_ne_nil c _
    · rw [scanRepl_cons_some rep hm]
      intro hnil
      rcases List.append_eq_nil.mp hnil with ⟨h1, _⟩
      exact hrep h1

theorem normalize_ne_nil {u : Str} (hu : u ≠ []) : normalizeVideoUrl u ≠ [] := by
  have hrep : repStr ≠ [] := by decide
  exact scanRepl_ne_nil _ hrep (scanRepl_ne_nil _ hrep (scanRepl_ne_nil _ hrep
    (scanRepl_ne_nil _ hrep hu)))

/-- C2: every success response of the parse pipeline carries a non-empty
media URL: `okJson` is emitted only behind the `if (!videoSrc)` gate, and
domain normalization maps non-empty strings to non-empty strings. -/
theorem C2_success_nonempty (body : Option Str) (net : Str → HttpResp)
    (rr : Str → Str → Str) (fb : FbResp) (o : StratOracle) (u c d : Str)
    (h : parseHandler body net rr fb o = .okJson u c d) : u ≠ [] := by
  rcases body with _ | url
  · rw [parseHandler] at h
    exact ParseResponse.noConfusion h
  · rw [parseHandler] at h
    by_cases hurl : url = []
    · rw [if_pos hurl] at h
      exact ParseResponse.noConfusion h
    · rw [if_neg hurl] at h
      rcases hvid : (resolveShortUrl net rr fb ((extractFirstUrl url).getD url)).videoId
        with _ | vid
      · rw [hvid] at h
        exact ParseResponse.noConfusion h
      · simp only [hvid] at h
        by_cases hsrc : (runStrategies vid o).videoSrc = []
        · rw [if_pos hsrc] at h
          exact ParseResponse.noConfusion h
        · rw [if_neg hsrc] at h
          injection h with h1 h2 h3
          rw [← h1]
          exact normalize_ne_nil hsrc

theorem C2_success_nonempty_witness :
    parseHandler (some "https://www.douyin.com/video/712".data) netErr rrId fbErrNone
        probeOnlyOracle
      = .okJson (normalizeVideoUrl (cdnUrl "712".data)) [] descPlaceholder ∧
    normalizeVideoUrl (cdnUrl "712".data) ≠ [] :=
  ⟨rfl, C2_success_nonempty (some "https://www.douyin.com/video/712".data) netErr rrId
    fbErrNone probeOnlyOracle (normalizeVideoUrl (cdnUrl "712".data)) [] descPlaceholder rfl⟩

/-- C1 as stated is false on the current server: with an identifier
obtained and every strategy failing, the response is `{success: false}`
with an error message — not a placeholder record, not a success. -/
theorem C1_counterexample :
    parseHandler (some "https://www.douyin.com/video/123".data) netErr rrId fbErrNone
        allFaultOracle
      = .failJson msgAllFailed ∧
    isSuccessResp (parseHandler (some "https://www.douyin.com/video/123".data) netErr rrId
        fbErrNone allFaultOracle) = false ∧
    pipelineVid "https://www.douyin.com/video/123".data netErr rrId fbErrNone
      = some "123".data :=
  ⟨rfl, rfl, rfl⟩

/-- C1 (amended): when an identifier was obtained but every strategy
fails, the pipeline returns an explicit failure outcome — `success =
false` with a non-empty error message — instead of a placeholder record.
(The `isDemo` placeholder exists only in the older compiled server
variant shipped in the repository, not in the TypeScript server the build
compiles and runs.) -/
theorem C1_all_fail_is_failure (url : Str) (net : Str → HttpResp) (rr : Str → Str → Str)
    (fb : FbResp) (o : StratOracle) (vid : Str)
    (hurl : url ≠ [])
    (hvid : pipelineVid url net rr fb = some vid)
    (hfail : (runStrategies vid o).videoSrc = []) :
    parseHandler (some url) net rr fb o = .failJson msgAllFailed ∧ msgAllFailed ≠ [] := by
  rw [pipelineVid] at hvid
  rw [parseHandler, if_neg hurl]
  simp only [hvid, if_pos hfail]
  exact ⟨trivial, by decide⟩

theorem C1_all_fail_witness :
    parseHandler (some "https://www.douyin.com/video/321".data) netErr rrId fbErrNone
        allFaultOracle
      = .failJson msgAllFailed ∧ msgAllFailed ≠ [] :=
  C1_all_fail_is_failure "https://www.douyin.com/video/321".data netErr rrId fbErrNone
    allFaultOracle "321".data (by decide) rfl rfl

/-- C9 as stated is false on the current server: here the identifier is
obtained and no internal error occurs, yet the response is an explicit
error outcome (`success = false` with an error message), because all
strategies failed — a third error case beyond the two the claim allows. -/
theorem C9_counterexample :
    pipelineVid "https://www.douyin.com/video/456".data netErr rrId fbErrNone
      = some "456".data ∧
    parseHandler (some "https://www.douyin.com/video/456".data) netErr rrId fbErrNone
        ⟨none, none, none, some none, some false⟩
      = .failJson msgAllFailed ∧
    msgAllFailed ≠ [] :=
  ⟨rfl, rfl, by decide⟩

/-- C9 (amended): the parse pipeline never reaches the 500 handler inside
this deterministic model, and a non-success outcome occurs exactly when
the request body is missing or empty, no identifier was obtained, or
every strategy failed; a fault inside an individual strategy never
surfaces as an error by itself (the classification does not mention
faults, only the absence of a produced media URL). -/
theorem C9_error_classification (body : Option Str) (net : Str → HttpResp)
    (rr : Str → Str → Str) (fb : FbResp) (o : StratOracle) :
    (∀ m, parseHandler body net rr fb o ≠ .serverError m) ∧
    (isSuccessResp (parseHandler body net rr fb o) = false ↔
      body = none ∨ ∃ url, body = some url ∧ (url = [] ∨
        pipelineVid url net rr fb = none ∨
        ∃ vid, pipelineVid url net rr fb = some vid ∧ (runStrategies vid o).videoSrc = [])) := by
  rcases body with _ | url
  · refine ⟨fun m => ?_, ?_⟩
    · rw [parseHandler]
      exact fun h => ParseResponse.noConfusion h
    · rw [parseHandler]
      simp [isSuccessResp]
  · rw [parseHandler]
    by_cases hurl : url = []
    · rw [if_pos hurl]
      refine ⟨fun m h => ParseResponse.noConfusion h, ?_⟩
      constructor
      · intro _
        exact Or.inr ⟨url, rfl, Or.inl hurl⟩
      · intro _
        rfl
    · rw [if_neg hurl]
      rcases hvid : (resolveShortUrl net rr fb ((extractFirstUrl url).getD url)).videoId
        with _ | vid
      · refine ⟨fun m h => ParseResponse.noConfusion h, ?_⟩
        constructor
        · intro _
          exact Or.inr ⟨url, rfl, Or.inr (Or.inl (by rw [pipelineVid]; exact hvid))⟩
        · intro _
          rfl
      · simp only [hvid]
        by_cases hsrc : (runStrategies vid o).videoSrc = []
        · rw [if_pos hsrc]
          refine ⟨fun m h => ParseResponse.noConfusion h, ?_⟩
          constructor
          · intro _
            exact Or.inr ⟨url, rfl, Or.inr (Or.inr ⟨vid, by rw [pipelineVid]; exact hvid, hsrc⟩)⟩
          · intro _
            rfl
        · rw [if_neg hsrc]
          refine ⟨fun m h => ParseResponse.noConfusion h, ?_⟩
          constructor
          · intro hfalse
            exact absurd hfalse (by simp [isSuccessResp])
          · rintro (h | ⟨url2, hurl2, h⟩)
            · exact Option.noConfusion h
            · obtain rfl : url2 = url := (Option.some.injEq url2 url).mp hurl2.symm
              rcases h with h | h | ⟨vid2, hvid2, hsrc2⟩
              · exact absurd h hurl
              · rw [pipelineVid, hvid] at h
                exact Option.noConfusion h
              · rw [pipelineVid, hvid] at hvid2
                obtain rfl : vid = vid2 := Option.some.inj hvid2
                exact absurd hsrc2 hsrc

/-- C10: in every success outcome, domain normalization is applied only
to the media URL; the cover URL and the description are returned exactly
as the winning strategy produced them (the description with only the
empty-string placeholder substitution), and the cover is never passed
through `normalizeVideoUrl`. -/
theorem C10_normalize_only_media (url : Str) (net : Str → HttpResp) (rr : Str → Str → Str)
    (fb : FbResp) (o : StratOracle) (vid : Str)
    (hurl : url ≠ [])
    (hvid : pipelineVid url net rr fb = some vid)
    (hsrc : (runStrategies vid o).videoSrc ≠ []) :
    parseHandler (some url) net rr fb o
      = .okJson (normalizeVideoUrl (runStrategies vid o).videoSrc)
          (runStrategies vid o).coverSrc
          (jsOrS (runStrategies vid o).descText descPlaceholder) := by
  rw [pipelineVid] at hvid
  rw [parseHandler, if_neg hurl]
  simp only [hvid, if_neg hsrc]

theorem C10_normalize_only_media_witness :
    parseHandler (some "https://www.douyin.com/video/712".data) netErr rrId fbErrNone
        legacyOnlyOracle
      = .okJson
          (normalizeVideoUrl (runStrategies "712".data legacyOnlyOracle).videoSrc)
          (runStrategies "712".data legacyOnlyOracle).coverSrc
          (jsOrS (runStrategies "712".data legacyOnlyOracle).descText descPlaceholder) ∧
    (runStrategies "712".data legacyOnlyOracle).coverSrc
      = "http://aweme.snssdk.com/cover/7.jpg".data ∧
    normalizeVideoUrl "http://aweme.snssdk.com/cover/7.jpg".data
      ≠ "http://aweme.snssdk.com/cover/7.jpg".data := by
  refine ⟨C10_normalize_only_media "https://www.douyin.com/video/712".data netErr rrId
    fbErrNone legacyOnlyOracle "712".data (by decide) rfl (by decide), rfl, ?_⟩
  intro heq
  have hocc : Occurs (LitP pat1) "http://aweme.snssdk.com/cover/7.jpg".data :=
    ⟨pat1, rfl, by decide⟩
  have hclean := (normalize_clean "http://aweme.snssdk.com/cover/7.jpg".data).1
  rw [heq] at hclean
  exact hclean hocc


end DouyinDown
